import Mathlib

/-!
Shallow embedding of the duplicate-file finder in `justone.py` (class `JustOne`
and the CLI around it).

Modelling choices:
* Paths are strings; file contents are byte lists (`List Nat`).
* The operating system is an explicit oracle `FS`: `stat` models `os.stat`
  (`none` = `OSError`), `read` models opening and reading a file (`none` =
  `OSError`), and `scan` models the recursive `scandir` walk of `_scan_dir`
  at its interface boundary (yields `(path, size)` pairs of the regular files
  in a subtree, or fails).
* The pluggable digest (`hash_func`) is an explicit function parameter
  `hashFn : List Nat -> List Nat`; `_get_hash` hashes the first 1024 bytes when
  `first_chunk_only` is set, otherwise the whole content (chunked reading
  composes to hashing the full byte string).
* Python exceptions become the inductive `PyErr`; `raise X from e` is modelled
  by `PyErr.updateErrorFrom`.
* Python `dict`s become insertion-ordered association lists (`alGet`/`alSet`);
  Python `set`s become duplicate-free lists in insertion order (`slAdd`,
  `slUnion`).  `defaultdict` lookup-with-insertion is modelled by reading with
  default and writing the merged value back.
* The progress wrapper `tqdm2 = lambda x: tqdm(tuple(x))` forces each generator
  into a tuple before the loop body runs, so each pipeline stage of
  `_update_multiple_files_with_size` is modelled as an eager phase: the merge
  generators are run to completion before the hashing loop bodies execute.
* The state carries a ghost field `hash_calls` recording every completed call
  to `_get_hash` (record index, path, `first_chunk_only`); it affects nothing
  and exists only so that theorems can speak about which hashes were computed.
-/

abbrev FilePath2 : Type := String
abbrev HashValue : Type := List Nat
abbrev FileIndex : Type := Nat
abbrev FileSize : Type := Nat

/-- Result of `os.stat` on a path: regular-file flag, directory flag, size. -/
structure FileStat where
  isReg : Bool
  isDir : Bool
  size : Nat
deriving Repr, DecidableEq

/-- Failure of the directory walk oracle. -/
inductive ScanErr where
  | notADir : ScanErr
  | os : ScanErr
deriving Repr, DecidableEq

/-- The operating-system oracle: stat, file reading, and directory walking. -/
structure FS where
  stat : FilePath2 → Option FileStat
  read : FilePath2 → Option (List Nat)
  scan : FilePath2 → Except ScanErr (List (FilePath2 × Nat))

/-- Python exceptions that can cross the boundaries of the embedded code.
`osError` covers the `OSError` hierarchy except `NotADirectoryError`, which is
kept separate because `_update_single_directory` names it. The `JustOneError`
subclasses of the module each get a constructor; `updateErrorFrom` is
`raise UpdateError from cause` and `updateErrorMsg` is `UpdateError(msg)`. -/
inductive PyErr where
  | osError : PyErr
  | notADirectoryError : PyErr
  | getFileInfoError : PyErr
  | getSmallHashError : PyErr
  | getFullHashError : PyErr
  | updateErrorFrom (cause : PyErr) : PyErr
  | updateErrorMsg (msg : String) : PyErr
deriving Repr, DecidableEq

/-- Which `PyErr`s are instances of the module's `JustOneError` base class. -/
def isJustOneError : PyErr → Bool
  | .osError => false
  | .notADirectoryError => false
  | _ => true

/-- Which `PyErr`s are instances of `UpdateError`. -/
def isUpdateError : PyErr → Bool
  | .updateErrorFrom _ => true
  | .updateErrorMsg _ => true
  | _ => false

/-- Lookup in an insertion-ordered association list (Python `dict` access). -/
def alGet {κ α : Type} [DecidableEq κ] : List (κ × α) → κ → Option α
  | [], _ => none
  | kv :: rest, k => if kv.1 = k then some kv.2 else alGet rest k

/-- Lookup with a default value (`dict.get(k, d)` / `defaultdict` read). -/
def alGetD {κ α : Type} [DecidableEq κ] (d : List (κ × α)) (k : κ) (dft : α) : α :=
  (alGet d k).getD dft

/-- Write to an insertion-ordered association list: replace in place if the key
exists (Python dicts keep the original position), else append. -/
def alSet {κ α : Type} [DecidableEq κ] : List (κ × α) → κ → α → List (κ × α)
  | [], k, v => [(k, v)]
  | kv :: rest, k, v => if kv.1 = k then (k, v) :: rest else kv :: alSet rest k v

/-- Python `set.add` on a duplicate-free insertion-ordered list. -/
def slAdd (s : List Nat) (x : Nat) : List Nat :=
  if x ∈ s then s else s ++ [x]

/-- Python in-place set union `s |= t`. -/
def slUnion (s t : List Nat) : List Nat :=
  t.foldl slAdd s

/-- `temp[k].add(i)` on a `defaultdict(set)`. -/
def tempAdd {κ : Type} [DecidableEq κ] (d : List (κ × List Nat)) (k : κ) (i : Nat) :
    List (κ × List Nat) :=
  alSet d k (slAdd (alGetD d k []) i)

/-- One row of `self.file_info`:
`<Index, Path-Object, File-Size, Small-Hash, Full-Hash>`. -/
structure FileRecord where
  index : FileIndex
  file : FilePath2
  file_size : FileSize
  small_hash : Option HashValue
  full_hash : Option HashValue
deriving Repr, DecidableEq

/-- The mutable state of one `JustOne` engine instance, as set up by
`JustOne.__init__` (plus the ghost `hash_calls` log). -/
structure JustOne where
  file_info : List FileRecord
  file_index : List (FilePath2 × FileIndex)
  size_dict : List (FileSize × List FileIndex)
  small_hash_dict : List ((FileSize × HashValue) × List FileIndex)
  full_hash_dict : List (HashValue × List FileIndex)
  hash_calls : List (FileIndex × FilePath2 × Bool)
deriving Repr, DecidableEq

/-- `JustOne.__init__`: every container starts empty.  Note that nothing in the
module ever writes to `file_index`; it stays empty forever. -/
def JustOne.init : JustOne :=
  ⟨[], [], [], [], [], []⟩

/-- `JustOne._get_hash`: hash the first 1024 bytes (`first_chunk_only=True`,
`SMALL_HASH_CHUNK_SIZE_DEFAULT = 1024`) or the whole content; chunked reading
of the whole file composes to one digest of the full byte string. `none`
models an `OSError` while opening or reading. -/
def get_hash (hashFn : List Nat → HashValue) (fs : FS) (fp : FilePath2)
    (first_chunk_only : Bool) : Option HashValue :=
  (fs.read fp).map fun content =>
    hashFn (if first_chunk_only then content.take 1024 else content)

/-- `JustOne._get_file_info`: return `(file, file_size, small_hash, full_hash)`
of the record at `index`, or `GetFileInfoError` when the index is out of
range. -/
def get_file_info (st : JustOne) (index : FileIndex) :
    Except PyErr (FilePath2 × FileSize × Option HashValue × Option HashValue) :=
  match st.file_info.get? index with
  | none => .error .getFileInfoError
  | some r => .ok (r.file, r.file_size, r.small_hash, r.full_hash)

/-- `JustOne._add_file_info` (with `file_size` always supplied, as at its only
reachable call site): look the path up in `file_index`; if absent, append a
fresh record with unset hashes at index `len(file_info)`.  Since `file_index`
is never populated anywhere in the module, the lookup branch is dead on every
reachable state and a new record is appended on every call. -/
def add_file_info (st : JustOne) (file : FilePath2) (file_size : FileSize) :
    JustOne × FileIndex :=
  match alGet st.file_index file with
  | some index => (st, index)
  | none =>
      let index := st.file_info.length
      ({ st with file_info := st.file_info ++ [⟨index, file, file_size, none, none⟩] }, index)

/-- `JustOne._get_small_hash`: return the cached small hash, or compute the
hash of the first 1024 bytes, cache it in the record, and return it.  An
out-of-range index raises `GetSmallHashError`; a failing read surfaces as
`OSError`.  The ghost log records each completed hash computation. -/
def get_small_hash (hashFn : List Nat → HashValue) (fs : FS) (st : JustOne)
    (index : FileIndex) : Except PyErr (JustOne × HashValue) :=
  match st.file_info.get? index with
  | none => .error .getSmallHashError
  | some r =>
    match r.small_hash with
    | some h => .ok (st, h)
    | none =>
      match get_hash hashFn fs r.file true with
      | none => .error .osError
      | some h =>
        .ok ({ st with
               file_info := st.file_info.set r.index
                 ⟨r.index, r.file, r.file_size, some h, r.full_hash⟩,
               hash_calls := st.hash_calls ++ [(index, r.file, true)] }, h)

/-- `JustOne._get_full_hash`: same as `get_small_hash` but for the digest of
the whole content, raising `GetFullHashError` on an out-of-range index. -/
def get_full_hash (hashFn : List Nat → HashValue) (fs : FS) (st : JustOne)
    (index : FileIndex) : Except PyErr (JustOne × HashValue) :=
  match st.file_info.get? index with
  | none => .error .getFullHashError
  | some r =>
    match r.full_hash with
    | some h => .ok (st, h)
    | none =>
      match get_hash hashFn fs r.file false with
      | none => .error .osError
      | some h =>
        .ok ({ st with
               file_info := st.file_info.set r.index
                 ⟨r.index, r.file, r.file_size, r.small_hash, some h⟩,
               hash_calls := st.hash_calls ++ [(index, r.file, false)] }, h)

/-- The common shape of `_merge_size_dict`, `_merge_small_hash_dict` and
`_merge_full_hash_dict`: for each key of the local batch dictionary, union the
batch set into the global set for that key (the `defaultdict` creates the entry
when missing); whenever the merged set has more than one member, yield
`(key, i)` for every `i` of the local contribution. -/
def mergeDict {κ : Type} [DecidableEq κ] :
    List (κ × List Nat) → List (κ × List Nat) → List (κ × List Nat) × List (κ × Nat)
  | global, [] => (global, [])
  | global, kv :: rest =>
    let index_set := slUnion (alGetD global kv.1 []) kv.2
    let global1 := alSet global kv.1 index_set
    let res := mergeDict global1 rest
    if 1 < index_set.length then
      (res.1, kv.2.map (fun i => (kv.1, i)) ++ res.2)
    else
      (res.1, res.2)

/-- `JustOne._merge_size_dict`, run to completion (the `tqdm` wrapper forces
the generator): merge the batch size dictionary into `size_dict`, yielding the
`(file_size, file_index)` pairs of local files whose merged size group has more
than one member. -/
def merge_size_dict (st : JustOne) (size_dict_temp : List (FileSize × List FileIndex)) :
    JustOne × List (FileSize × FileIndex) :=
  let res := mergeDict st.size_dict size_dict_temp
  ({ st with size_dict := res.1 }, res.2)

/-- `JustOne._merge_small_hash_dict`, run to completion: merge the batch
`(size, small-hash)` dictionary into `small_hash_dict`, yielding the local
indices whose merged group has more than one member. -/
def merge_small_hash_dict (st : JustOne)
    (small_hash_dict_temp : List ((FileSize × HashValue) × List FileIndex)) :
    JustOne × List FileIndex :=
  let res := mergeDict st.small_hash_dict small_hash_dict_temp
  ({ st with small_hash_dict := res.1 }, res.2.map (·.2))

/-- `JustOne._merge_full_hash_dict`, run to completion: merge the batch
full-hash dictionary into `full_hash_dict`, yielding the local indices whose
merged group has more than one member. -/
def merge_full_hash_dict (st : JustOne)
    (full_hash_dict_temp : List (HashValue × List FileIndex)) :
    JustOne × List FileIndex :=
  let res := mergeDict st.full_hash_dict full_hash_dict_temp
  ({ st with full_hash_dict := res.1 }, res.2.map (·.2))

/-- First loop of `_update_multiple_files_with_size`: register every
`(file, file_size)` pair via `_add_file_info` and collect the indices in the
local `size_dict_temp`. -/
def sizePhase : JustOne → List (FilePath2 × FileSize) → List (FileSize × List FileIndex) →
    JustOne × List (FileSize × List FileIndex)
  | st, [], temp => (st, temp)
  | st, fsz :: rest, temp =>
    let res := add_file_info st fsz.1 fsz.2
    sizePhase res.1 rest (tempAdd temp fsz.2 res.2)

/-- Second loop of `_update_multiple_files_with_size`: for each yielded
`(file_size, file_index)`, get or compute the small hash and record the index
in the local `small_hash_dict_temp`.  An `OSError` is wrapped as
`raise UpdateError from e`; other exceptions propagate unwrapped, and the
in-flight mutations stay in place. -/
def smallHashLoop (hashFn : List Nat → HashValue) (fs : FS) :
    JustOne → List (FileSize × FileIndex) → List ((FileSize × HashValue) × List FileIndex) →
    JustOne × Except PyErr (List ((FileSize × HashValue) × List FileIndex))
  | st, [], temp => (st, .ok temp)
  | st, p :: rest, temp =>
    match get_small_hash hashFn fs st p.2 with
    | .error .osError => (st, .error (.updateErrorFrom .osError))
    | .error e => (st, .error e)
    | .ok sh => smallHashLoop hashFn fs sh.1 rest (tempAdd temp (p.1, sh.2) p.2)

/-- Third loop of `_update_multiple_files_with_size`: for each yielded index,
get or compute the full hash and record the index in the local
`full_hash_dict_temp`; `OSError` is wrapped as `UpdateError` likewise. -/
def fullHashLoop (hashFn : List Nat → HashValue) (fs : FS) :
    JustOne → List FileIndex → List (HashValue × List FileIndex) →
    JustOne × Except PyErr (List (HashValue × List FileIndex))
  | st, [], temp => (st, .ok temp)
  | st, i :: rest, temp =>
    match get_full_hash hashFn fs st i with
    | .error .osError => (st, .error (.updateErrorFrom .osError))
    | .error e => (st, .error e)
    | .ok fh => fullHashLoop hashFn fs fh.1 rest (tempAdd temp fh.2 i)

/-- `JustOne._update_multiple_files_with_size`: the three-stage funnel over one
batch of `(path, size)` pairs.  Returns the final state together with either
the set of duplicate-bearing indices of this batch or the exception that
aborted it (leaving all mutations made so far in place). -/
def update_multiple_files_with_size (hashFn : List Nat → HashValue) (fs : FS)
    (st : JustOne) (files_with_size : List (FilePath2 × FileSize)) :
    JustOne × Except PyErr (List FileIndex) :=
  let s1 := sizePhase st files_with_size []
  let m1 := merge_size_dict s1.1 s1.2
  match smallHashLoop hashFn fs m1.1 m1.2 [] with
  | (st3, .error e) => (st3, .error e)
  | (st3, .ok small_hash_dict_temp) =>
    let m2 := merge_small_hash_dict st3 small_hash_dict_temp
    match fullHashLoop hashFn fs m2.1 m2.2 [] with
    | (st5, .error e) => (st5, .error e)
    | (st5, .ok full_hash_dict_temp) =>
      let m3 := merge_full_hash_dict st5 full_hash_dict_temp
      (m3.1, .ok (m3.2.foldl slAdd []))

/-- Validation loop of `_update_multiple_files`: stat each path and pair it
with its size; a stat failure raises the underlying `OSError` (uncaught), and
a non-regular file raises `UpdateError('Not a Regular File: ...')`.  The whole
list is built before the funnel runs, so a failure here leaves the engine
state untouched. -/
def statPhase (fs : FS) : List FilePath2 → Except PyErr (List (FilePath2 × FileSize))
  | [] => .ok []
  | f :: rest =>
    match fs.stat f with
    | none => .error .osError
    | some s =>
      if s.isReg = false then .error (.updateErrorMsg ("Not a Regular File: " ++ f))
      else (statPhase fs rest).map (fun l => (f, s.size) :: l)

/-- `JustOne._update_multiple_files`: validate the batch as regular files, then
run the funnel. -/
def update_multiple_files (hashFn : List Nat → HashValue) (fs : FS) (st : JustOne)
    (files : List FilePath2) : JustOne × Except PyErr (List FileIndex) :=
  match statPhase fs files with
  | .error e => (st, .error e)
  | .ok files_with_size => update_multiple_files_with_size hashFn fs st files_with_size

/-- `JustOne._update_single_directory`: walk one directory and feed the
resulting `(path, size)` pairs to the funnel.  The `try/except` in the source
wraps only the construction of a generator expression, which executes nothing,
so a failing walk surfaces as the raw `NotADirectoryError`/`OSError` rather
than as `UpdateError`. -/
def update_single_directory (hashFn : List Nat → HashValue) (fs : FS) (st : JustOne)
    (single_dir : FilePath2) : JustOne × Except PyErr (List FileIndex) :=
  match fs.scan single_dir with
  | .error .notADir => (st, .error .notADirectoryError)
  | .error .os => (st, .error .osError)
  | .ok files_with_size => update_multiple_files_with_size hashFn fs st files_with_size

/-- `JustOne._update_multiple_directories`: run the funnel on each directory in
turn, unioning the duplicate-bearing index sets. -/
def update_multiple_directories (hashFn : List Nat → HashValue) (fs : FS) :
    JustOne → List FilePath2 → List FileIndex → JustOne × Except PyErr (List FileIndex)
  | st, [], acc => (st, .ok acc)
  | st, d :: rest, acc =>
    match update_single_directory hashFn fs st d with
    | (st1, .error e) => (st1, .error e)
    | (st1, .ok s) => update_multiple_directories hashFn fs st1 rest (slUnion acc s)

/-- `Path(p).is_dir()`: `False` when stat fails (missing path). -/
def pathIsDir (fs : FS) (p : FilePath2) : Bool :=
  match fs.stat p with
  | none => false
  | some s => s.isDir

/-- The path-projection loop of `update`'s return statement:
`tuple(self._get_file_info(file_index)[0] for file_index in result)`, with the
first `GetFileInfoError` aborting the whole tuple. -/
def mapPaths (st : JustOne) : List FileIndex → Except PyErr (List FilePath2)
  | [] => .ok []
  | i :: rest =>
    match get_file_info st i with
    | .error e => .error e
    | .ok info => (mapPaths st rest).map (fun l => info.1 :: l)

/-- `JustOne.update` on an already-flattened argument list: an empty list
returns `()` untouched; otherwise the first element is peeked, `is_dir`
decides directory mode versus file mode for the whole call, and the resulting
duplicate-bearing indices are mapped back to paths via `_get_file_info`. -/
def JustOne.update (hashFn : List Nat → HashValue) (fs : FS) (st : JustOne)
    (args : List FilePath2) : JustOne × Except PyErr (List FilePath2) :=
  match args with
  | [] => (st, .ok [])
  | first :: _ =>
    let res :=
      if pathIsDir fs first then update_multiple_directories hashFn fs st args []
      else update_multiple_files hashFn fs st args
    match res.2 with
    | .error e => (res.1, .error e)
    | .ok idxs =>
      match mapPaths res.1 idxs with
      | .error e => (res.1, .error e)
      | .ok paths => (res.1, .ok paths)

/-- Iteration of `duplicates()` over the items of `full_hash_dict`. -/
def dupPaths (st : JustOne) : List (HashValue × List FileIndex) →
    Except PyErr (List (List FilePath2))
  | [] => .ok []
  | kv :: rest =>
    match mapPaths st kv.2 with
    | .error e => .error e
    | .ok g => (dupPaths st rest).map (fun l => g :: l)

/-- `JustOne.duplicates`: one group per key of `full_hash_dict`, each group
being the paths of every index in that key's set, with no filtering on group
size. -/
def JustOne.duplicates (st : JustOne) : Except PyErr (List (List FilePath2)) :=
  dupPaths st st.full_hash_dict

/-- `str(e)` of an exception instance: only `UpdateError(msg)` carries text. -/
def errStr : PyErr → String
  | .updateErrorMsg m => m
  | _ => ""

/-- The `__cause__` chain of an exception, innermost last. -/
def exceptionChain : PyErr → List PyErr
  | .updateErrorFrom c => .updateErrorFrom c :: exceptionChain c
  | e => [e]

/-- `format_exception_chain`: `[aaa] -> [bbb]`, innermost cause first. -/
def format_exception_chain (e : PyErr) : String :=
  match (exceptionChain e).reverse with
  | [] => ""
  | x :: rest =>
    rest.foldl (fun acc y => acc ++ " -> [" ++ errStr y ++ "]") ("[" ++ errStr x ++ "]")

/-- The usage line printed by `main`. -/
def usageLine : String := "Usage: justone <folder_path>"

/-- `print_duplicates(dp)`: run a fresh engine over one directory and print the
groups.  `JustOneError`s from the update are caught and reported as exit code
1; reading the lazy `duplicates()` generator happens outside the `try`, so an
error there (impossible on reachable states) propagates uncaught. -/
def print_duplicates (hashFn : List Nat → HashValue) (fs : FS) (dp : FilePath2) :
    List String × Except PyErr Nat :=
  let res := JustOne.update hashFn fs JustOne.init [dp]
  match res.2 with
  | .error e =>
    if isJustOneError e then (["Error: " ++ format_exception_chain e], .ok 1)
    else ([], .error e)
  | .ok _ =>
    match res.1.duplicates with
    | .error e => ([], .error e)
    | .ok groups =>
      (groups.foldl
        (fun acc g => acc ++ ["Duplicate found:"] ++ g.map (fun fp => " - " ++ fp) ++ [""])
        [], .ok 0)

/-- `main()` over `sys.argv` (program name included): returns the printed lines
and the function's return value — `none` models the bare `return` taken when
the single argument is not an existing directory. -/
def mainFn (hashFn : List Nat → HashValue) (fs : FS) (argv : List String) :
    List String × Except PyErr (Option Nat) :=
  if argv.length = 1 then ([usageLine], .ok (some 0))
  else if 2 < argv.length then ([usageLine], .ok (some 1))
  else
    let path_str := argv.getD 1 ""
    if path_str = "-h" ∨ path_str = "--help" then ([usageLine], .ok (some 0))
    else if pathIsDir fs path_str = false then
      (["Not an existed folder path.", usageLine], .ok none)
    else
      let res := print_duplicates hashFn fs path_str
      match res.2 with
      | .ok n => (res.1, .ok (some n))
      | .error e => (res.1, .error e)

/-- `sys.exit(main())`: `sys.exit(None)` terminates the process with exit
status 0, `sys.exit(n)` with status `n`. -/
def sysExitCode (r : Option Nat) : Nat :=
  r.getD 0

/-! ## Invariants and monotonicity notions used by the theorems. -/

/-- Default record used for decidable positional lookups. -/
def dfltRec : FileRecord := ⟨0, "", 0, none, none⟩

/-- The record at position `i` exists and has its small hash set. -/
def recHasSmall (st : JustOne) (i : FileIndex) : Bool :=
  ((st.file_info.get? i).map (fun r => r.small_hash.isSome)).getD false

/-- The record at position `i` exists and has its full hash set. -/
def recHasFull (st : JustOne) (i : FileIndex) : Bool :=
  ((st.file_info.get? i).map (fun r => r.full_hash.isSome)).getD false

/-- Decidable membership of index `i` in the set stored under key `k`. -/
def memOfB {κ : Type} [DecidableEq κ] (d : List (κ × List Nat)) (k : κ) (i : Nat) : Bool :=
  match alGet d k with
  | some v => decide (i ∈ v)
  | none => false

/-- Propositional membership of index `i` in the set stored under key `k`. -/
def memOf {κ : Type} [DecidableEq κ] (d : List (κ × List Nat)) (k : κ) (i : Nat) : Prop :=
  ∃ v, alGet d k = some v ∧ i ∈ v

/-- Some entry of a local batch dictionary holds index `i` under key `k`. -/
def tmem {κ : Type} [DecidableEq κ] (temp : List (κ × List Nat)) (k : κ) (i : Nat) : Prop :=
  ∃ e ∈ temp, e.1 = k ∧ i ∈ e.2

/-- Well-formedness of an engine state; it holds for `JustOne.init` and is
preserved by every public operation: `file_index` is empty (nothing ever
writes it), each record is stored at the position equal to its `index` field,
every index recorded in `small_hash_dict` (resp. `full_hash_dict`) points to a
record whose small (resp. full) hash is set, and every record appears in
`size_dict` under its size. -/
def Wf (st : JustOne) : Prop :=
  st.file_index = [] ∧
  (∀ i, i < st.file_info.length → (st.file_info.getD i dfltRec).index = i) ∧
  (∀ kv ∈ st.small_hash_dict, ∀ i ∈ kv.2, recHasSmall st i = true) ∧
  (∀ kv ∈ st.full_hash_dict, ∀ i ∈ kv.2, recHasFull st i = true) ∧
  (∀ r ∈ st.file_info, memOfB st.size_dict r.file_size r.index = true)

instance (st : JustOne) : Decidable (Wf st) := by
  unfold Wf
  infer_instance

/-- Records are stored at the position equal to their `index` field
(`get?` form of the second `Wf` clause). -/
def IdxOk (st : JustOne) : Prop :=
  ∀ i r, st.file_info.get? i = some r → r.index = i

/-- A record can only improve: identity fields are unchanged and hashes that
were set keep their value. -/
def RecLe (r r2 : FileRecord) : Prop :=
  r2.index = r.index ∧ r2.file = r.file ∧ r2.file_size = r.file_size ∧
  (∀ h, r.small_hash = some h → r2.small_hash = some h) ∧
  (∀ h, r.full_hash = some h → r2.full_hash = some h)

/-- Every record of the first state survives, improved, at the same position
in the second state. -/
def RecMono (st st2 : JustOne) : Prop :=
  ∀ i r, st.file_info.get? i = some r → ∃ r2, st2.file_info.get? i = some r2 ∧ RecLe r r2

/-- Per-key growth of a mapping: every key keeps its entry, the stored set
keeps its members, and its size never shrinks. -/
def DictGe {κ : Type} [DecidableEq κ] (d d2 : List (κ × List Nat)) : Prop :=
  ∀ k v, alGet d k = some v → ∃ v2, alGet d2 k = some v2 ∧ (∀ x ∈ v, x ∈ v2) ∧ v.length ≤ v2.length

/-- Monotone evolution of an engine state across one operation: records
improve in place, the three Stage-Index mappings only grow, the ghost hash log
only grows, and `file_index` is untouched. -/
def StMono (st st2 : JustOne) : Prop :=
  RecMono st st2 ∧
  DictGe st.size_dict st2.size_dict ∧
  DictGe st.small_hash_dict st2.small_hash_dict ∧
  DictGe st.full_hash_dict st2.full_hash_dict ∧
  (∀ c ∈ st.hash_calls, c ∈ st2.hash_calls) ∧
  st2.file_index = st.file_index

/-- Index `idx` shares its merged size group with at least one other index. -/
def SizeCollision (st : JustOne) (idx : FileIndex) : Prop :=
  ∃ r v, st.file_info.get? idx = some r ∧ alGet st.size_dict r.file_size = some v ∧
    idx ∈ v ∧ 1 < v.length

/-- Index `idx` shares some merged `(size, small-hash)` group with at least
one other index. -/
def SmallCollision (st : JustOne) (idx : FileIndex) : Prop :=
  ∃ k v, alGet st.small_hash_dict k = some v ∧ idx ∈ v ∧ 1 < v.length

/-- Index `idx` shares some merged full-hash group with at least one other
index: it is duplicate-bearing at the final stage of the funnel. -/
def FullCollision (st : JustOne) (idx : FileIndex) : Prop :=
  ∃ k v, alGet st.full_hash_dict k = some v ∧ idx ∈ v ∧ 1 < v.length

/-- A logged hash computation is justified by a funnel collision: a prefix
hash only for indices whose size group has at least two members, a full hash
only for indices whose `(size, small-hash)` group has at least two members. -/
def HashOk (st : JustOne) (c : FileIndex × FilePath2 × Bool) : Prop :=
  if c.2.2 then SizeCollision st c.1 else SmallCollision st c.1

/-- Everything one batch guarantees about the state transition it performs. -/
def CorePost (st st2 : JustOne) : Prop :=
  Wf st2 ∧ StMono st st2 ∧ ∀ c ∈ st2.hash_calls, c ∈ st.hash_calls ∨ HashOk st2 c

/-! ## Helper lemmas on sets and association lists. -/

theorem mem_slAdd {s : List Nat} {x y : Nat} : x ∈ slAdd s y ↔ x ∈ s ∨ x = y := by
  unfold slAdd
  split
  · rename_i hy
    constructor
    · exact fun h => Or.inl h
    · rintro (h | rfl)
      · exact h
      · exact hy
  · simp [List.mem_append]

theorem mem_slUnion {s t : List Nat} {x : Nat} : x ∈ slUnion s t ↔ x ∈ s ∨ x ∈ t := by
  induction t generalizing s with
  | nil => simp [slUnion]
  | cons y t ih =>
    show x ∈ slUnion (slAdd s y) t ↔ _
    rw [ih, mem_slAdd]
    simp [List.mem_cons]
    tauto

theorem length_le_slAdd (s : List Nat) (y : Nat) : s.length ≤ (slAdd s y).length := by
  unfold slAdd
  split
  · exact le_refl _
  · simp

theorem length_le_slUnion (s t : List Nat) : s.length ≤ (slUnion s t).length := by
  induction t generalizing s with
  | nil => exact le_refl _
  | cons y t ih => exact le_trans (length_le_slAdd s y) (ih (slAdd s y))

theorem alGet_alSet {κ α : Type} [DecidableEq κ] (d : List (κ × α)) (k k2 : κ) (v : α) :
    alGet (alSet d k v) k2 = if k2 = k then some v else alGet d k2 := by
  induction d with
  | nil =>
    simp only [alSet, alGet]
    by_cases h : k2 = k
    · subst h; simp
    · rw [if_neg (fun hh => h hh.symm), if_neg h]
  | cons kv rest ih =>
    simp only [alSet]
    by_cases hk : kv.1 = k
    · rw [if_pos hk]
      simp only [alGet]
      by_cases h2 : k2 = k
      · subst h2; simp
      · rw [if_neg (fun hh => h2 hh.symm), if_neg h2, hk,
          if_neg (fun hh => h2 hh.symm)]
    · rw [if_neg hk]
      simp only [alGet]
      by_cases h2 : kv.1 = k2
      · have hne : ¬ k2 = k := fun hh => hk (h2.trans hh)
        rw [if_pos h2, if_neg hne, if_pos h2]
      · rw [if_neg h2, ih]
        by_cases h3 : k2 = k
        · simp [h3]
        · rw [if_neg h3, if_neg h3, if_neg h2]

theorem memOfB_iff {κ : Type} [DecidableEq κ] (d : List (κ × List Nat)) (k : κ) (i : Nat) :
    memOfB d k i = true ↔ memOf d k i := by
  unfold memOfB memOf
  cases h : alGet d k <;> simp

theorem dictGe_refl {κ : Type} [DecidableEq κ] (d : List (κ × List Nat)) : DictGe d d :=
  fun _ v h => ⟨v, h, fun _ hx => hx, le_refl _⟩

theorem dictGe_trans {κ : Type} [DecidableEq κ] {d d2 d3 : List (κ × List Nat)}
    (h1 : DictGe d d2) (h2 : DictGe d2 d3) : DictGe d d3 := by
  intro k v hv
  obtain ⟨va, ha, hsa, hla⟩ := h1 k v hv
  obtain ⟨vb, hb, hsb, hlb⟩ := h2 k va ha
  exact ⟨vb, hb, fun x hx => hsb x (hsa x hx), le_trans hla hlb⟩

theorem mergeDict_cons_fst {κ : Type} [DecidableEq κ] (g : List (κ × List Nat))
    (kv : κ × List Nat) (rest : List (κ × List Nat)) :
    (mergeDict g (kv :: rest)).1 =
      (mergeDict (alSet g kv.1 (slUnion (alGetD g kv.1 []) kv.2)) rest).1 := by
  simp only [mergeDict]
  split <;> rfl

theorem mergeDict_cons_snd {κ : Type} [DecidableEq κ] (g : List (κ × List Nat))
    (kv : κ × List Nat) (rest : List (κ × List Nat)) :
    (mergeDict g (kv :: rest)).2 =
      (if 1 < (slUnion (alGetD g kv.1 []) kv.2).length then
        kv.2.map (fun i => (kv.1, i)) else []) ++
      (mergeDict (alSet g kv.1 (slUnion (alGetD g kv.1 []) kv.2)) rest).2 := by
  simp only [mergeDict]
  split <;> simp

theorem mergeDict_grow {κ : Type} [DecidableEq κ] (t : List (κ × List Nat)) :
    ∀ g : List (κ × List Nat), DictGe g (mergeDict g t).1 := by
  induction t with
  | nil => intro g; exact dictGe_refl g
  | cons kv rest ih =>
    intro g k v h
    rw [mergeDict_cons_fst]
    by_cases hk : k = kv.1
    · rw [hk] at h
      have hv0 : alGetD g kv.1 [] = v := by unfold alGetD; rw [h]; rfl
      have hget : alGet (alSet g kv.1 (slUnion (alGetD g kv.1 []) kv.2)) k =
          some (slUnion (alGetD g kv.1 []) kv.2) := by
        rw [alGet_alSet, if_pos hk]
      obtain ⟨v2, hv2, hsub, hlen⟩ := ih _ k _ hget
      refine ⟨v2, hv2, ?_, ?_⟩
      · intro x hx
        exact hsub x (mem_slUnion.mpr (Or.inl (by rw [hv0]; exact hx)))
      · calc v.length ≤ (slUnion (alGetD g kv.1 []) kv.2).length := by
              rw [hv0]; exact length_le_slUnion _ _
          _ ≤ v2.length := hlen
    · have hget : alGet (alSet g kv.1 (slUnion (alGetD g kv.1 []) kv.2)) k = some v := by
        rw [alGet_alSet, if_neg hk]; exact h
      exact ih _ k v hget

theorem mergeDict_yield_src {κ : Type} [DecidableEq κ] (t : List (κ × List Nat)) :
    ∀ (g : List (κ × List Nat)) (k : κ) (i : Nat),
      (k, i) ∈ (mergeDict g t).2 → ∃ e ∈ t, e.1 = k ∧ i ∈ e.2 := by
  induction t with
  | nil => intro g k i h; simp [mergeDict] at h
  | cons kv rest ih =>
    intro g k i h
    rw [mergeDict_cons_snd] at h
    rcases List.mem_append.mp h with h1 | h2
    · split at h1
      · rcases List.mem_map.mp h1 with ⟨x, hx, heq⟩
        injection heq with heq1 heq2
        subst heq1; subst heq2
        exact ⟨kv, List.mem_cons_self _ _, rfl, hx⟩
      · cases h1
    · obtain ⟨e, he, h5⟩ := ih _ k i h2
      exact ⟨e, List.mem_cons_of_mem _ he, h5⟩

theorem mergeDict_yield_collision {κ : Type} [DecidableEq κ] (t : List (κ × List Nat)) :
    ∀ (g : List (κ × List Nat)) (k : κ) (i : Nat), (k, i) ∈ (mergeDict g t).2 →
      ∃ v, alGet (mergeDict g t).1 k = some v ∧ i ∈ v ∧ 1 < v.length := by
  induction t with
  | nil => intro g k i h; simp [mergeDict] at h
  | cons kv rest ih =>
    intro g k i h
    rw [mergeDict_cons_snd] at h
    rw [mergeDict_cons_fst]
    rcases List.mem_append.mp h with h1 | h2
    · by_cases hc : 1 < (slUnion (alGetD g kv.1 []) kv.2).length
      · rw [if_pos hc] at h1
        rcases List.mem_map.mp h1 with ⟨x, hx, heq⟩
        injection heq with heq1 heq2
        subst heq1; subst heq2
        have hget : alGet (alSet g kv.1 (slUnion (alGetD g kv.1 []) kv.2)) kv.1 =
            some (slUnion (alGetD g kv.1 []) kv.2) := by
          rw [alGet_alSet]; simp
        obtain ⟨v2, hv2, hsub, hlen⟩ := mergeDict_grow rest _ kv.1 _ hget
        exact ⟨v2, hv2, hsub _ (mem_slUnion.mpr (Or.inr hx)), lt_of_lt_of_le hc hlen⟩
      · rw [if_neg hc] at h1; cases h1
    · exact ih _ k i h2

theorem mergeDict_temp_mem {κ : Type} [DecidableEq κ] (t : List (κ × List Nat)) :
    ∀ g : List (κ × List Nat), ∀ e ∈ t, ∀ i ∈ e.2, memOf (mergeDict g t).1 e.1 i := by
  induction t with
  | nil => intro g e he; cases he
  | cons kv rest ih =>
    intro g e he i hi
    rw [mergeDict_cons_fst]
    rcases List.mem_cons.mp he with rfl | he2
    · have hget : alGet (alSet g e.1 (slUnion (alGetD g e.1 []) e.2)) e.1 =
          some (slUnion (alGetD g e.1 []) e.2) := by
        rw [alGet_alSet]; simp
      obtain ⟨v2, hv2, hsub, _⟩ := mergeDict_grow rest _ e.1 _ hget
      exact ⟨v2, hv2, hsub i (mem_slUnion.mpr (Or.inr hi))⟩
    · exact ih _ e he2 i hi

theorem mergeDict_new_mem {κ : Type} [DecidableEq κ] (t : List (κ × List Nat)) :
    ∀ (g : List (κ × List Nat)) (k : κ) (i : Nat),
      memOf (mergeDict g t).1 k i → memOf g k i ∨ tmem t k i := by
  induction t with
  | nil => intro g k i h; exact Or.inl h
  | cons kv rest ih =>
    intro g k i h
    rw [mergeDict_cons_fst] at h
    rcases ih _ k i h with h1 | h2
    · obtain ⟨v, hv, hiv⟩ := h1
      rw [alGet_alSet] at hv
      by_cases hk : k = kv.1
      · rw [if_pos hk] at hv
        injection hv with hv
        subst hv
        rcases mem_slUnion.mp hiv with ha | hb
        · left
          cases hg : alGet g kv.1 with
          | none =>
            unfold alGetD at ha; rw [hg] at ha; cases ha
          | some v0 =>
            unfold alGetD at ha; rw [hg] at ha
            exact ⟨v0, by rw [hk, hg], ha⟩
        · right
          exact ⟨kv, List.mem_cons_self _ _, hk.symm, hb⟩
      · rw [if_neg hk] at hv
        exact Or.inl ⟨v, hv, hiv⟩
    · right
      obtain ⟨e, he, h5⟩ := h2
      exact ⟨e, List.mem_cons_of_mem _ he, h5⟩

theorem tempAdd_cons_eq {κ : Type} [DecidableEq κ] (kv : κ × List Nat)
    (rest : List (κ × List Nat)) (k0 : κ) (i0 : Nat) (hkv : kv.1 = k0) :
    tempAdd (kv :: rest) k0 i0 = (k0, slAdd kv.2 i0) :: rest := by
  unfold tempAdd alGetD
  simp only [alGet, alSet, hkv, if_pos rfl]
  rfl

theorem tempAdd_cons_ne {κ : Type} [DecidableEq κ] (kv : κ × List Nat)
    (rest : List (κ × List Nat)) (k0 : κ) (i0 : Nat) (hkv : ¬ kv.1 = k0) :
    tempAdd (kv :: rest) k0 i0 = kv :: tempAdd rest k0 i0 := by
  unfold tempAdd alGetD
  simp [alGet, alSet, hkv]

theorem tmem_tempAdd_self {κ : Type} [DecidableEq κ] (temp : List (κ × List Nat))
    (k0 : κ) (i0 : Nat) : tmem (tempAdd temp k0 i0) k0 i0 := by
  induction temp with
  | nil =>
    refine ⟨(k0, slAdd (alGetD [] k0 []) i0), ?_, rfl, ?_⟩
    · unfold tempAdd; exact List.mem_cons_self _ _
    · show i0 ∈ slAdd (alGetD [] k0 []) i0
      exact mem_slAdd.mpr (Or.inr rfl)
  | cons kv rest ih =>
    by_cases hkv : kv.1 = k0
    · rw [tempAdd_cons_eq kv rest k0 i0 hkv]
      exact ⟨(k0, slAdd kv.2 i0), List.mem_cons_self _ _, rfl, mem_slAdd.mpr (Or.inr rfl)⟩
    · rw [tempAdd_cons_ne kv rest k0 i0 hkv]
      obtain ⟨e, he, h1, h2⟩ := ih
      exact ⟨e, List.mem_cons_of_mem _ he, h1, h2⟩

theorem tmem_tempAdd_of {κ : Type} [DecidableEq κ] {temp : List (κ × List Nat)}
    {k : κ} {i : Nat} (k0 : κ) (i0 : Nat) (h : tmem temp k i) :
    tmem (tempAdd temp k0 i0) k i := by
  induction temp with
  | nil => obtain ⟨e, he, _⟩ := h; cases he
  | cons kv rest ih =>
    obtain ⟨e, he, h1, h2⟩ := h
    by_cases hkv : kv.1 = k0
    · rw [tempAdd_cons_eq kv rest k0 i0 hkv]
      rcases List.mem_cons.mp he with rfl | he2
      · exact ⟨(k0, slAdd e.2 i0), List.mem_cons_self _ _, by rw [← h1, hkv],
          mem_slAdd.mpr (Or.inl h2)⟩
      · exact ⟨e, List.mem_cons_of_mem _ he2, h1, h2⟩
    · rw [tempAdd_cons_ne kv rest k0 i0 hkv]
      rcases List.mem_cons.mp he with rfl | he2
      · exact ⟨e, List.mem_cons_self _ _, h1, h2⟩
      · obtain ⟨e2, he3, h3, h4⟩ := ih ⟨e, he2, h1, h2⟩
        exact ⟨e2, List.mem_cons_of_mem _ he3, h3, h4⟩

theorem tmem_tempAdd_elim {κ : Type} [DecidableEq κ] {temp : List (κ × List Nat)}
    {k k0 : κ} {i i0 : Nat} (h : tmem (tempAdd temp k0 i0) k i) :
    tmem temp k i ∨ (k = k0 ∧ i = i0) := by
  induction temp with
  | nil =>
    obtain ⟨e, he, h1, h2⟩ := h
    unfold tempAdd alSet at he
    rcases List.mem_cons.mp he with rfl | he2
    · dsimp only at h1 h2
      rcases mem_slAdd.mp h2 with ha | hb
      · unfold alGetD at ha; simp [alGet] at ha
      · exact Or.inr ⟨h1.symm, hb⟩
    · cases he2
  | cons kv rest ih =>
    by_cases hkv : kv.1 = k0
    · rw [tempAdd_cons_eq kv rest k0 i0 hkv] at h
      obtain ⟨e, he, h1, h2⟩ := h
      rcases List.mem_cons.mp he with rfl | he2
      · dsimp only at h1 h2
        rcases mem_slAdd.mp h2 with ha | hb
        · exact Or.inl ⟨kv, List.mem_cons_self _ _, by rw [hkv]; exact h1, ha⟩
        · exact Or.inr ⟨h1.symm, hb⟩
      · exact Or.inl ⟨e, List.mem_cons_of_mem _ he2, h1, h2⟩
    · rw [tempAdd_cons_ne kv rest k0 i0 hkv] at h
      obtain ⟨e, he, h1, h2⟩ := h
      rcases List.mem_cons.mp he with rfl | he2
      · exact Or.inl ⟨e, List.mem_cons_self _ _, h1, h2⟩
      · rcases ih ⟨e, he2, h1, h2⟩ with ha | hb
        · obtain ⟨e2, he3, h3, h4⟩ := ha
          exact Or.inl ⟨e2, List.mem_cons_of_mem _ he3, h3, h4⟩
        · exact Or.inr hb

theorem get?_some_lt {α : Type} (l : List α) (n : Nat) (a : α) (h : l.get? n = some a) :
    n < l.length := by
  by_contra hn
  rw [List.get?_len_le (Nat.le_of_not_lt hn)] at h
  cases h

theorem get?_append_left {α : Type} (l l2 : List α) (n : Nat) (a : α)
    (h : l.get? n = some a) : (l ++ l2).get? n = some a := by
  rw [List.get?_append (get?_some_lt l n a h)]
  exact h

theorem recLe_refl (r : FileRecord) : RecLe r r :=
  ⟨rfl, rfl, rfl, fun _ h => h, fun _ h => h⟩

theorem recLe_trans {a b c : FileRecord} (h1 : RecLe a b) (h2 : RecLe b c) : RecLe a c := by
  obtain ⟨i1, f1, s1, sh1, fh1⟩ := h1
  obtain ⟨i2, f2, s2, sh2, fh2⟩ := h2
  exact ⟨i2.trans i1, f2.trans f1, s2.trans s1,
    fun h hh => sh2 h (sh1 h hh), fun h hh => fh2 h (fh1 h hh)⟩

theorem recMono_refl (st : JustOne) : RecMono st st :=
  fun _ r h => ⟨r, h, recLe_refl r⟩

theorem recMono_trans {a b c : JustOne} (h1 : RecMono a b) (h2 : RecMono b c) : RecMono a c := by
  intro i r h
  obtain ⟨r2, hr2, hle2⟩ := h1 i r h
  obtain ⟨r3, hr3, hle3⟩ := h2 i r2 hr2
  exact ⟨r3, hr3, recLe_trans hle2 hle3⟩

theorem stMono_refl (st : JustOne) : StMono st st :=
  ⟨recMono_refl st, dictGe_refl _, dictGe_refl _, dictGe_refl _, fun _ h => h, rfl⟩

theorem stMono_trans {a b c : JustOne} (h1 : StMono a b) (h2 : StMono b c) : StMono a c := by
  obtain ⟨r1, s1, sm1, f1, hc1, fi1⟩ := h1
  obtain ⟨r2, s2, sm2, f2, hc2, fi2⟩ := h2
  exact ⟨recMono_trans r1 r2, dictGe_trans s1 s2, dictGe_trans sm1 sm2,
    dictGe_trans f1 f2, fun c hc => hc2 c (hc1 c hc), fi2.trans fi1⟩

theorem recHasSmall_mono {st st2 : JustOne} {i : FileIndex} (h : RecMono st st2)
    (hh : recHasSmall st i = true) : recHasSmall st2 i = true := by
  unfold recHasSmall at hh ⊢
  cases hg : st.file_info.get? i with
  | none => rw [hg] at hh; cases hh
  | some r =>
    rw [hg] at hh
    obtain ⟨r2, hr2, hle⟩ := h i r hg
    rw [hr2]
    simp only [Option.map_some', Option.getD_some] at hh ⊢
    cases hs : r.small_hash with
    | none => rw [hs] at hh; cases hh
    | some v => rw [hle.2.2.2.1 v hs]; rfl

theorem recHasFull_mono {st st2 : JustOne} {i : FileIndex} (h : RecMono st st2)
    (hh : recHasFull st i = true) : recHasFull st2 i = true := by
  unfold recHasFull at hh ⊢
  cases hg : st.file_info.get? i with
  | none => rw [hg] at hh; cases hh
  | some r =>
    rw [hg] at hh
    obtain ⟨r2, hr2, hle⟩ := h i r hg
    rw [hr2]
    simp only [Option.map_some', Option.getD_some] at hh ⊢
    cases hs : r.full_hash with
    | none => rw [hs] at hh; cases hh
    | some v => rw [hle.2.2.2.2 v hs]; rfl

theorem recMono_back {st st2 : JustOne}
    (hlen : st2.file_info.length = st.file_info.length) (h : RecMono st st2)
    {i : FileIndex} {r2 : FileRecord} (hr2 : st2.file_info.get? i = some r2) :
    ∃ r, st.file_info.get? i = some r ∧ RecLe r r2 := by
  cases hg : st.file_info.get? i with
  | none =>
    have hle := List.get?_eq_none.mp hg
    have := get?_some_lt _ _ _ hr2
    omega
  | some r =>
    obtain ⟨r2b, hr2b, hle⟩ := h i r hg
    rw [hr2] at hr2b
    injection hr2b with hb
    rw [← hb] at hle
    exact ⟨r, rfl, hle⟩

theorem recMono_length_le {st st2 : JustOne} (h : RecMono st st2) :
    st.file_info.length ≤ st2.file_info.length := by
  cases hn : st.file_info.length with
  | zero => omega
  | succ n =>
    cases hg : st.file_info.get? n with
    | none =>
      have := List.get?_eq_none.mp hg
      omega
    | some r =>
      obtain ⟨r2, hr2, _⟩ := h n r hg
      have := get?_some_lt _ _ _ hr2
      omega

/-- What one in-place hashing step (or a run of them) preserves: the list of
records keeps its length, the three mappings and `file_index` are untouched,
records only improve, and the hash log only grows. -/
def HashPhasePost (st st2 : JustOne) : Prop :=
  st2.file_info.length = st.file_info.length ∧
  st2.size_dict = st.size_dict ∧
  st2.small_hash_dict = st.small_hash_dict ∧
  st2.full_hash_dict = st.full_hash_dict ∧
  st2.file_index = st.file_index ∧
  RecMono st st2 ∧
  (∀ c ∈ st.hash_calls, c ∈ st2.hash_calls)

theorem hashPhasePost_refl (st : JustOne) : HashPhasePost st st :=
  ⟨rfl, rfl, rfl, rfl, rfl, recMono_refl st, fun _ h => h⟩

theorem hashPhasePost_trans {a b c : JustOne} (h1 : HashPhasePost a b)
    (h2 : HashPhasePost b c) : HashPhasePost a c := by
  obtain ⟨l1, s1, sm1, f1, fi1, r1, hc1⟩ := h1
  obtain ⟨l2, s2, sm2, f2, fi2, r2, hc2⟩ := h2
  exact ⟨l2.trans l1, s2.trans s1, sm2.trans sm1, f2.trans f1, fi2.trans fi1,
    recMono_trans r1 r2, fun x hx => hc2 x (hc1 x hx)⟩

theorem get_small_hash_shape (hf : List Nat → HashValue) (fs : FS) (st : JustOne)
    (i : FileIndex) (st2 : JustOne) (h : HashValue)
    (heq : get_small_hash hf fs st i = .ok (st2, h)) :
    ∃ r, st.file_info.get? i = some r ∧
      ((r.small_hash = some h ∧ st2 = st) ∨
       (r.small_hash = none ∧ get_hash hf fs r.file true = some h ∧
        st2 = { st with
                file_info := st.file_info.set r.index
                  ⟨r.index, r.file, r.file_size, some h, r.full_hash⟩,
                hash_calls := st.hash_calls ++ [(i, r.file, true)] })) := by
  unfold get_small_hash at heq
  split at heq
  · cases heq
  · rename_i r hg
    split at heq
    · rename_i h0 hs
      injection heq with heq2
      injection heq2 with ha hb
      subst hb
      exact ⟨r, hg, Or.inl ⟨hs, ha.symm⟩⟩
    · rename_i hs
      split at heq
      · cases heq
      · rename_i h1 hh
        injection heq with heq2
        injection heq2 with ha hb
        subst hb
        exact ⟨r, hg, Or.inr ⟨hs, hh, ha.symm⟩⟩

theorem get_full_hash_shape (hf : List Nat → HashValue) (fs : FS) (st : JustOne)
    (i : FileIndex) (st2 : JustOne) (h : HashValue)
    (heq : get_full_hash hf fs st i = .ok (st2, h)) :
    ∃ r, st.file_info.get? i = some r ∧
      ((r.full_hash = some h ∧ st2 = st) ∨
       (r.full_hash = none ∧ get_hash hf fs r.file false = some h ∧
        st2 = { st with
                file_info := st.file_info.set r.index
                  ⟨r.index, r.file, r.file_size, r.small_hash, some h⟩,
                hash_calls := st.hash_calls ++ [(i, r.file, false)] })) := by
  unfold get_full_hash at heq
  split at heq
  · cases heq
  · rename_i r hg
    split at heq
    · rename_i h0 hs
      injection heq with heq2
      injection heq2 with ha hb
      subst hb
      exact ⟨r, hg, Or.inl ⟨hs, ha.symm⟩⟩
    · rename_i hs
      split at heq
      · cases heq
      · rename_i h1 hh
        injection heq with heq2
        injection heq2 with ha hb
        subst hb
        exact ⟨r, hg, Or.inr ⟨hs, hh, ha.symm⟩⟩

theorem get_small_hash_post (hf : List Nat → HashValue) (fs : FS) (st : JustOne)
    (i : FileIndex) (st2 : JustOne) (h : HashValue) (hidx : IdxOk st)
    (heq : get_small_hash hf fs st i = .ok (st2, h)) :
    IdxOk st2 ∧ HashPhasePost st st2 ∧ recHasSmall st2 i = true ∧
    (∀ c ∈ st2.hash_calls, c ∈ st.hash_calls ∨ (c.1 = i ∧ c.2.2 = true)) := by
  obtain ⟨r, hg, hcase⟩ := get_small_hash_shape hf fs st i st2 h heq
  have hri : r.index = i := hidx i r hg
  have hlt : i < st.file_info.length := get?_some_lt _ _ _ hg
  rcases hcase with ⟨hsh, hst⟩ | ⟨hsh, hgh, hst⟩
  · subst hst
    refine ⟨hidx, hashPhasePost_refl _, ?_, fun c hc => Or.inl hc⟩
    unfold recHasSmall
    rw [hg]
    simp only [Option.map_some', Option.getD_some]
    rw [hsh]
    rfl
  · subst hst
    have hget2 : (st.file_info.set r.index
        ⟨r.index, r.file, r.file_size, some h, r.full_hash⟩).get? i =
        some ⟨r.index, r.file, r.file_size, some h, r.full_hash⟩ := by
      rw [hri]
      exact List.get?_set_eq_of_lt _ hlt
    refine ⟨?_, ⟨?_, rfl, rfl, rfl, rfl, ?_, ?_⟩, ?_, ?_⟩
    · intro j rj hj
      by_cases hij : j = i
      · subst hij
        rw [show (st.file_info.set r.index
            ⟨r.index, r.file, r.file_size, some h, r.full_hash⟩).get? j =
            some ⟨r.index, r.file, r.file_size, some h, r.full_hash⟩ from hget2] at hj
        injection hj with hj
        rw [← hj]
        exact hri
      · rw [show (st.file_info.set r.index
            ⟨r.index, r.file, r.file_size, some h, r.full_hash⟩).get? j
            = st.file_info.get? j from by
            rw [hri]; exact List.get?_set_ne _ _ (fun hh => hij hh.symm)] at hj
        exact hidx j rj hj
    · exact List.length_set _ _ _
    · intro j rj hj
      by_cases hij : j = i
      · subst hij
        rw [hg] at hj
        injection hj with hj
        subst hj
        refine ⟨⟨r.index, r.file, r.file_size, some h, r.full_hash⟩, hget2,
          rfl, rfl, rfl, ?_, ?_⟩
        · intro h0 hh0
          rw [hsh] at hh0
          cases hh0
        · intro h0 hh0
          exact hh0
      · refine ⟨rj, ?_, recLe_refl rj⟩
        rw [hri]
        rw [List.get?_set_ne _ _ (fun hh => hij hh.symm)]
        exact hj
    · intro c hc
      exact List.mem_append.mpr (Or.inl hc)
    · unfold recHasSmall
      rw [hget2]
      rfl
    · intro c hc
      rcases List.mem_append.mp hc with h1 | h2
      · exact Or.inl h1
      · rcases List.mem_singleton.mp h2 with rfl
        exact Or.inr ⟨rfl, rfl⟩

theorem get_full_hash_post (hf : List Nat → HashValue) (fs : FS) (st : JustOne)
    (i : FileIndex) (st2 : JustOne) (h : HashValue) (hidx : IdxOk st)
    (heq : get_full_hash hf fs st i = .ok (st2, h)) :
    IdxOk st2 ∧ HashPhasePost st st2 ∧ recHasFull st2 i = true ∧
    (∀ c ∈ st2.hash_calls, c ∈ st.hash_calls ∨ (c.1 = i ∧ c.2.2 = false)) := by
  obtain ⟨r, hg, hcase⟩ := get_full_hash_shape hf fs st i st2 h heq
  have hri : r.index = i := hidx i r hg
  have hlt : i < st.file_info.length := get?_some_lt _ _ _ hg
  rcases hcase with ⟨hsh, hst⟩ | ⟨hsh, hgh, hst⟩
  · subst hst
    refine ⟨hidx, hashPhasePost_refl _, ?_, fun c hc => Or.inl hc⟩
    unfold recHasFull
    rw [hg]
    simp only [Option.map_some', Option.getD_some]
    rw [hsh]
    rfl
  · subst hst
    have hget2 : (st.file_info.set r.index
        ⟨r.index, r.file, r.file_size, r.small_hash, some h⟩).get? i =
        some ⟨r.index, r.file, r.file_size, r.small_hash, some h⟩ := by
      rw [hri]
      exact List.get?_set_eq_of_lt _ hlt
    refine ⟨?_, ⟨?_, rfl, rfl, rfl, rfl, ?_, ?_⟩, ?_, ?_⟩
    · intro j rj hj
      by_cases hij : j = i
      · subst hij
        rw [show (st.file_info.set r.index
            ⟨r.index, r.file, r.file_size, r.small_hash, some h⟩).get? j =
            some ⟨r.index, r.file, r.file_size, r.small_hash, some h⟩ from hget2] at hj
        injection hj with hj
        rw [← hj]
        exact hri
      · rw [show (st.file_info.set r.index
            ⟨r.index, r.file, r.file_size, r.small_hash, some h⟩).get? j
            = st.file_info.get? j from by
            rw [hri]; exact List.get?_set_ne _ _ (fun hh => hij hh.symm)] at hj
        exact hidx j rj hj
    · exact List.length_set _ _ _
    · intro j rj hj
      by_cases hij : j = i
      · subst hij
        rw [hg] at hj
        injection hj with hj
        subst hj
        refine ⟨⟨r.index, r.file, r.file_size, r.small_hash, some h⟩, hget2,
          rfl, rfl, rfl, ?_, ?_⟩
        · intro h0 hh0
          exact hh0
        · intro h0 hh0
          rw [hsh] at hh0
          cases hh0
      · refine ⟨rj, ?_, recLe_refl rj⟩
        rw [hri]
        rw [List.get?_set_ne _ _ (fun hh => hij hh.symm)]
        exact hj
    · intro c hc
      exact List.mem_append.mpr (Or.inl hc)
    · unfold recHasFull
      rw [hget2]
      rfl
    · intro c hc
      rcases List.mem_append.mp hc with h1 | h2
      · exact Or.inl h1
      · rcases List.mem_singleton.mp h2 with rfl
        exact Or.inr ⟨rfl, rfl⟩

theorem smallHashLoop_post (hf : List Nat → HashValue) (fs : FS)
    (pairs : List (FileSize × FileIndex)) :
    ∀ (st : JustOne) (temp : List ((FileSize × HashValue) × List FileIndex))
      (st2 : JustOne) (res : Except PyErr (List ((FileSize × HashValue) × List FileIndex))),
      smallHashLoop hf fs st pairs temp = (st2, res) → IdxOk st →
      (∀ k i, tmem temp k i → recHasSmall st i = true) →
      IdxOk st2 ∧ HashPhasePost st st2 ∧
      (∀ c ∈ st2.hash_calls, c ∈ st.hash_calls ∨ (c.2.2 = true ∧ ∃ k, (k, c.1) ∈ pairs)) ∧
      (∀ temp2, res = .ok temp2 →
        (∀ k i, tmem temp2 k i → recHasSmall st2 i = true) ∧
        (∀ k i, tmem temp2 k i → tmem temp k i ∨ ∃ k2, (k2, i) ∈ pairs)) := by
  induction pairs with
  | nil =>
    intro st temp st2 res heq hidx htemp
    unfold smallHashLoop at heq
    injection heq with h1 h2
    subst h1
    refine ⟨hidx, hashPhasePost_refl _, fun c hc => Or.inl hc, ?_⟩
    intro temp2 hok
    rw [← h2] at hok
    injection hok with h3
    subst h3
    exact ⟨htemp, fun k i ht => Or.inl ht⟩
  | cons p rest ih =>
    intro st temp st2 res heq hidx htemp
    unfold smallHashLoop at heq
    split at heq
    · injection heq with h1 h2
      subst h1
      refine ⟨hidx, hashPhasePost_refl _, fun c hc => Or.inl hc, ?_⟩
      intro temp2 hok
      rw [← h2] at hok
      cases hok
    · injection heq with h1 h2
      subst h1
      refine ⟨hidx, hashPhasePost_refl _, fun c hc => Or.inl hc, ?_⟩
      intro temp2 hok
      rw [← h2] at hok
      cases hok
    · rename_i sh hok
      obtain ⟨hidx2, hpp, hsmall, hcalls⟩ :=
        get_small_hash_post hf fs st p.2 sh.1 sh.2 hidx hok
      have htemp2 : ∀ k i, tmem (tempAdd temp (p.1, sh.2) p.2) k i →
          recHasSmall sh.1 i = true := by
        intro k i ht
        rcases tmem_tempAdd_elim ht with h1 | ⟨hk, hi⟩
        · exact recHasSmall_mono hpp.2.2.2.2.2.1 (htemp k i h1)
        · rw [hi]
          exact hsmall
      obtain ⟨ihIdx, ihpp, ihcalls, ihtemp⟩ := ih sh.1 _ st2 res heq hidx2 htemp2
      refine ⟨ihIdx, hashPhasePost_trans hpp ihpp, ?_, ?_⟩
      · intro c hc
        rcases ihcalls c hc with h1 | ⟨h2, k, h3⟩
        · rcases hcalls c h1 with h4 | ⟨h5, h6⟩
          · exact Or.inl h4
          · refine Or.inr ⟨h6, p.1, ?_⟩
            have : (p.1, c.1) = p := by rw [h5]
            rw [this]
            exact List.mem_cons_self _ _
        · exact Or.inr ⟨h2, k, List.mem_cons_of_mem _ h3⟩
      · intro temp2 hok2
        obtain ⟨iha, ihb⟩ := ihtemp temp2 hok2
        refine ⟨iha, ?_⟩
        intro k i ht
        rcases ihb k i ht with h1 | ⟨k2, h2⟩
        · rcases tmem_tempAdd_elim h1 with h3 | ⟨hk, hi⟩
          · exact Or.inl h3
          · refine Or.inr ⟨p.1, ?_⟩
            have : (p.1, i) = p := by rw [hi]
            rw [this]
            exact List.mem_cons_self _ _
        · exact Or.inr ⟨k2, List.mem_cons_of_mem _ h2⟩

theorem fullHashLoop_post (hf : List Nat → HashValue) (fs : FS)
    (idxs : List FileIndex) :
    ∀ (st : JustOne) (temp : List (HashValue × List FileIndex))
      (st2 : JustOne) (res : Except PyErr (List (HashValue × List FileIndex))),
      fullHashLoop hf fs st idxs temp = (st2, res) → IdxOk st →
      (∀ k i, tmem temp k i → recHasFull st i = true) →
      IdxOk st2 ∧ HashPhasePost st st2 ∧
      (∀ c ∈ st2.hash_calls, c ∈ st.hash_calls ∨ (c.2.2 = false ∧ c.1 ∈ idxs)) ∧
      (∀ temp2, res = .ok temp2 →
        (∀ k i, tmem temp2 k i → recHasFull st2 i = true) ∧
        (∀ k i, tmem temp2 k i → tmem temp k i ∨ i ∈ idxs)) := by
  induction idxs with
  | nil =>
    intro st temp st2 res heq hidx htemp
    unfold fullHashLoop at heq
    injection heq with h1 h2
    subst h1
    refine ⟨hidx, hashPhasePost_refl _, fun c hc => Or.inl hc, ?_⟩
    intro temp2 hok
    rw [← h2] at hok
    injection hok with h3
    subst h3
    exact ⟨htemp, fun k i ht => Or.inl ht⟩
  | cons p rest ih =>
    intro st temp st2 res heq hidx htemp
    unfold fullHashLoop at heq
    split at heq
    · injection heq with h1 h2
      subst h1
      refine ⟨hidx, hashPhasePost_refl _, fun c hc => Or.inl hc, ?_⟩
      intro temp2 hok
      rw [← h2] at hok
      cases hok
    · injection heq with h1 h2
      subst h1
      refine ⟨hidx, hashPhasePost_refl _, fun c hc => Or.inl hc, ?_⟩
      intro temp2 hok
      rw [← h2] at hok
      cases hok
    · rename_i fh hok
      obtain ⟨hidx2, hpp, hfull, hcalls⟩ :=
        get_full_hash_post hf fs st p fh.1 fh.2 hidx hok
      have htemp2 : ∀ k i, tmem (tempAdd temp fh.2 p) k i →
          recHasFull fh.1 i = true := by
        intro k i ht
        rcases tmem_tempAdd_elim ht with h1 | ⟨hk, hi⟩
        · exact recHasFull_mono hpp.2.2.2.2.2.1 (htemp k i h1)
        · rw [hi]
          exact hfull
      obtain ⟨ihIdx, ihpp, ihcalls, ihtemp⟩ := ih fh.1 _ st2 res heq hidx2 htemp2
      refine ⟨ihIdx, hashPhasePost_trans hpp ihpp, ?_, ?_⟩
      · intro c hc
        rcases ihcalls c hc with h1 | ⟨h2, h3⟩
        · rcases hcalls c h1 with h4 | ⟨h5, h6⟩
          · exact Or.inl h4
          · refine Or.inr ⟨h6, ?_⟩
            rw [h5]
            exact List.mem_cons_self _ _
        · exact Or.inr ⟨h2, List.mem_cons_of_mem _ h3⟩
      · intro temp2 hok2
        obtain ⟨iha, ihb⟩ := ihtemp temp2 hok2
        refine ⟨iha, ?_⟩
        intro k i ht
        rcases ihb k i ht with h1 | h2
        · rcases tmem_tempAdd_elim h1 with h3 | ⟨hk, hi⟩
          · exact Or.inl h3
          · rw [hi]
            exact Or.inr (List.mem_cons_self _ _)
        · exact Or.inr (List.mem_cons_of_mem _ h2)

theorem add_file_info_nil (st : JustOne) (f : FilePath2) (sz : FileSize)
    (h : st.file_index = []) :
    add_file_info st f sz =
      ({ st with file_info := st.file_info ++ [⟨st.file_info.length, f, sz, none, none⟩] },
       st.file_info.length) := by
  unfold add_file_info
  rw [h]
  rfl

theorem get?_append_singleton {α : Type} (l : List α) (a : α) (i : Nat) (r : α)
    (h : (l ++ [a]).get? i = some r) : l.get? i = some r ∨ (i = l.length ∧ r = a) := by
  by_cases hi : i < l.length
  · left
    rw [List.get?_append hi] at h
    exact h
  · right
    have h1 := get?_some_lt _ _ _ h
    rw [List.length_append, List.length_singleton] at h1
    have h2 : i = l.length := by omega
    subst h2
    refine ⟨rfl, ?_⟩
    rw [List.get?_append_right (le_refl _)] at h
    simp at h
    exact h.symm

theorem sizePhase_tempGrow (files : List (FilePath2 × FileSize)) :
    ∀ (st : JustOne) (temp : List (FileSize × List FileIndex)) (k : FileSize) (i : FileIndex),
      tmem temp k i → tmem (sizePhase st files temp).2 k i := by
  induction files with
  | nil => intro st temp k i h; exact h
  | cons p rest ih =>
    intro st temp k i h
    unfold sizePhase
    exact ih _ _ k i (tmem_tempAdd_of _ _ h)

theorem sizePhase_state (files : List (FilePath2 × FileSize)) :
    ∀ (st : JustOne) (temp : List (FileSize × List FileIndex)), st.file_index = [] →
      ∃ ext : List FileRecord,
        (sizePhase st files temp).1 = { st with file_info := st.file_info ++ ext } := by
  induction files with
  | nil =>
    intro st temp h
    refine ⟨[], ?_⟩
    unfold sizePhase
    simp
  | cons p rest ih =>
    intro st temp h
    unfold sizePhase
    rw [add_file_info_nil st p.1 p.2 h]
    obtain ⟨ext2, hext2⟩ := ih
      { st with file_info := st.file_info ++ [⟨st.file_info.length, p.1, p.2, none, none⟩] }
      (tempAdd temp p.2 st.file_info.length) h
    refine ⟨⟨st.file_info.length, p.1, p.2, none, none⟩ :: ext2, ?_⟩
    rw [hext2]
    simp

theorem sizePhase_records (files : List (FilePath2 × FileSize)) :
    ∀ (st : JustOne) (temp : List (FileSize × List FileIndex)), st.file_index = [] →
      ∀ i r, (sizePhase st files temp).1.file_info.get? i = some r →
        st.file_info.get? i = some r ∨
        (r.index = i ∧ r.small_hash = none ∧ r.full_hash = none ∧
         (r.file, r.file_size) ∈ files ∧ tmem (sizePhase st files temp).2 r.file_size i) := by
  induction files with
  | nil =>
    intro st temp h i r hr
    exact Or.inl hr
  | cons p rest ih =>
    intro st temp h i r hr
    unfold sizePhase at hr ⊢
    rw [add_file_info_nil st p.1 p.2 h] at hr ⊢
    dsimp only at hr ⊢
    rcases ih
        { st with file_info :=
            st.file_info ++ [⟨st.file_info.length, p.1, p.2, none, none⟩] }
        (tempAdd temp p.2 st.file_info.length) h i r hr with h1 | ⟨h2, h3, h4, h5, h6⟩
    · rcases get?_append_singleton st.file_info
          ⟨st.file_info.length, p.1, p.2, none, none⟩ i r h1 with ha | ⟨ha, hb⟩
      · exact Or.inl ha
      · subst hb
        refine Or.inr ⟨ha.symm, rfl, rfl, ?_, ?_⟩
        · exact List.mem_cons_self _ _
        · rw [ha]
          exact sizePhase_tempGrow rest _ _ _ _
            (tmem_tempAdd_self temp p.2 st.file_info.length)
    · exact Or.inr ⟨h2, h3, h4, List.mem_cons_of_mem _ h5, h6⟩

theorem wf_IdxOk {st : JustOne} (hwf : Wf st) : IdxOk st := by
  intro i r hg
  have hlt := get?_some_lt _ _ _ hg
  have h2 := hwf.2.1 i hlt
  have h3 : st.file_info.getD i dfltRec = r := by
    show (st.file_info.get? i).getD dfltRec = r
    rw [hg]
    rfl
  rw [h3] at h2
  exact h2

theorem idxOk_getD {st : JustOne} (hidx : IdxOk st) :
    ∀ i, i < st.file_info.length → (st.file_info.getD i dfltRec).index = i := by
  intro i hlt
  cases hg : st.file_info.get? i with
  | none =>
    have := List.get?_eq_none.mp hg
    omega
  | some r =>
    have h3 : st.file_info.getD i dfltRec = r := by
      show (st.file_info.get? i).getD dfltRec = r
      rw [hg]
      rfl
    rw [h3]
    exact hidx i r hg

theorem dictGe_memOf {κ : Type} [DecidableEq κ] {d d2 : List (κ × List Nat)} {k : κ} {i : Nat}
    (hge : DictGe d d2) (hm : memOf d k i) : memOf d2 k i := by
  obtain ⟨v, hv, hiv⟩ := hm
  obtain ⟨v2, hv2, hsub, _⟩ := hge k v hv
  exact ⟨v2, hv2, hsub i hiv⟩

theorem sizeCollision_mono {stA stB : JustOne} {i : FileIndex}
    (hrm : RecMono stA stB) (hge : DictGe stA.size_dict stB.size_dict)
    (hc : SizeCollision stA i) : SizeCollision stB i := by
  obtain ⟨r, v, hr, hv, hiv, hlen⟩ := hc
  obtain ⟨r2, hr2, hle⟩ := hrm i r hr
  obtain ⟨v2, hv2, hsub, hlen2⟩ := hge r.file_size v hv
  refine ⟨r2, v2, hr2, ?_, hsub i hiv, lt_of_lt_of_le hlen hlen2⟩
  rw [hle.2.2.1]
  exact hv2

theorem smallCollision_mono {stA stB : JustOne} {i : FileIndex}
    (hge : DictGe stA.small_hash_dict stB.small_hash_dict)
    (hc : SmallCollision stA i) : SmallCollision stB i := by
  obtain ⟨k, v, hv, hiv, hlen⟩ := hc
  obtain ⟨v2, hv2, hsub, hlen2⟩ := hge k v hv
  exact ⟨k, v2, hv2, hsub i hiv, lt_of_lt_of_le hlen hlen2⟩

theorem fullCollision_mono {stA stB : JustOne} {i : FileIndex}
    (hge : DictGe stA.full_hash_dict stB.full_hash_dict)
    (hc : FullCollision stA i) : FullCollision stB i := by
  obtain ⟨k, v, hv, hiv, hlen⟩ := hc
  obtain ⟨v2, hv2, hsub, hlen2⟩ := hge k v hv
  exact ⟨k, v2, hv2, hsub i hiv, lt_of_lt_of_le hlen hlen2⟩

theorem hashOk_mono {stA stB : JustOne} {c : FileIndex × FilePath2 × Bool}
    (hsm : StMono stA stB) (hc : HashOk stA c) : HashOk stB c := by
  unfold HashOk at hc ⊢
  cases hb : c.2.2 with
  | true =>
    rw [hb] at hc
    rw [if_pos rfl] at hc ⊢
    exact sizeCollision_mono hsm.1 hsm.2.1 hc
  | false =>
    rw [hb] at hc
    rw [if_neg (by decide : ¬ (false = true))] at hc ⊢
    exact smallCollision_mono hsm.2.2.1 hc

theorem sizePhase_temp_src (files : List (FilePath2 × FileSize)) :
    ∀ (st : JustOne) (temp : List (FileSize × List FileIndex)), st.file_index = [] →
      ∀ k i, tmem (sizePhase st files temp).2 k i →
        tmem temp k i ∨ ∃ r, (sizePhase st files temp).1.file_info.get? i = some r ∧
          r.index = i ∧ r.file_size = k ∧ (r.file, r.file_size) ∈ files ∧
          st.file_info.length ≤ i := by
  induction files with
  | nil =>
    intro st temp h k i ht
    exact Or.inl ht
  | cons p rest ih =>
    intro st temp h k i ht
    unfold sizePhase at ht ⊢
    rw [add_file_info_nil st p.1 p.2 h] at ht ⊢
    dsimp only at ht ⊢
    rcases ih
        { st with file_info :=
            st.file_info ++ [⟨st.file_info.length, p.1, p.2, none, none⟩] }
        (tempAdd temp p.2 st.file_info.length) h k i ht with h1 | ⟨r, hr, h2, h3, h4, h5len⟩
    · rcases tmem_tempAdd_elim h1 with h5 | ⟨hk, hi⟩
      · exact Or.inl h5
      · obtain ⟨ext2, hext2⟩ := sizePhase_state rest
          { st with file_info :=
              st.file_info ++ [⟨st.file_info.length, p.1, p.2, none, none⟩] }
          (tempAdd temp p.2 st.file_info.length) h
        have hrec : (sizePhase
            { st with file_info :=
                st.file_info ++ [⟨st.file_info.length, p.1, p.2, none, none⟩] }
            rest (tempAdd temp p.2 st.file_info.length)).1.file_info.get? i =
            some ⟨st.file_info.length, p.1, p.2, none, none⟩ := by
          rw [hext2]
          show ((st.file_info ++
              [(⟨st.file_info.length, p.1, p.2, none, none⟩ : FileRecord)]) ++ ext2).get? i
            = some (⟨st.file_info.length, p.1, p.2, none, none⟩ : FileRecord)
          rw [hi]
          apply get?_append_left
          exact List.get?_concat_length _ _
        exact Or.inr ⟨⟨st.file_info.length, p.1, p.2, none, none⟩, hrec, hi.symm, hk.symm,
          List.mem_cons_self _ _, le_of_eq hi.symm⟩
    · have h6 : st.file_info.length ≤ i := by
        have h7 : st.file_info.length + 1 ≤ i := by simpa using h5len
        omega
      exact Or.inr ⟨r, hr, h2, h3, List.mem_cons_of_mem _ h4, h6⟩

theorem stage1_post (files : List (FilePath2 × FileSize)) (st stB : JustOne)
    (pairs : List (FileSize × FileIndex))
    (heq : merge_size_dict (sizePhase st files []).1 (sizePhase st files []).2 = (stB, pairs))
    (hwf : Wf st) :
    IdxOk stB ∧ StMono st stB ∧ stB.file_index = [] ∧
    stB.small_hash_dict = st.small_hash_dict ∧ stB.full_hash_dict = st.full_hash_dict ∧
    stB.hash_calls = st.hash_calls ∧
    (∀ r ∈ stB.file_info, memOfB stB.size_dict r.file_size r.index = true) ∧
    (∀ kp i, (kp, i) ∈ pairs → ∃ r v, stB.file_info.get? i = some r ∧ r.file_size = kp ∧
      alGet stB.size_dict kp = some v ∧ i ∈ v ∧ 1 < v.length ∧
      r.file ∈ files.map Prod.fst ∧ st.file_info.length ≤ i) := by
  have hfi : st.file_index = [] := hwf.1
  have hidx0 : IdxOk st := wf_IdxOk hwf
  obtain ⟨ext, hextEq⟩ := sizePhase_state files st [] hfi
  unfold merge_size_dict at heq
  injection heq with heqA heqB
  have hfiA : (sizePhase st files []).1.file_info = st.file_info ++ ext := by
    rw [hextEq]
  have hszA : (sizePhase st files []).1.size_dict = st.size_dict := by
    rw [hextEq]
  have hsmA : (sizePhase st files []).1.small_hash_dict = st.small_hash_dict := by
    rw [hextEq]
  have hflA : (sizePhase st files []).1.full_hash_dict = st.full_hash_dict := by
    rw [hextEq]
  have hhcA : (sizePhase st files []).1.hash_calls = st.hash_calls := by
    rw [hextEq]
  have hfxA : (sizePhase st files []).1.file_index = st.file_index := by
    rw [hextEq]
  have hfiB : stB.file_info = st.file_info ++ ext := by
    rw [← heqA, hfiA]
  have hsmB : stB.small_hash_dict = st.small_hash_dict := by
    rw [← heqA, hsmA]
  have hflB : stB.full_hash_dict = st.full_hash_dict := by
    rw [← heqA, hflA]
  have hhcB : stB.hash_calls = st.hash_calls := by
    rw [← heqA, hhcA]
  have hfxB : stB.file_index = [] := by
    rw [← heqA, hfxA, hfi]
  have hszB : stB.size_dict =
      (mergeDict (sizePhase st files []).1.size_dict (sizePhase st files []).2).1 := by
    rw [← heqA]
  have hidxA : IdxOk (sizePhase st files []).1 := by
    intro i r hg
    rcases sizePhase_records files st [] hfi i r hg with h1 | ⟨h2, _, _, _, _⟩
    · exact hidx0 i r h1
    · exact h2
  have hidxB : IdxOk stB := by
    intro i r hg
    apply hidxA i r
    rw [hfiA, ← hfiB]
    exact hg
  have hrmB : RecMono st stB := by
    intro i r hg
    refine ⟨r, ?_, recLe_refl r⟩
    rw [hfiB]
    exact get?_append_left _ _ _ _ hg
  have hmono : StMono st stB := by
    refine ⟨hrmB, ?_, ?_, ?_, ?_, ?_⟩
    · rw [hszB, ← hszA]
      exact mergeDict_grow _ _
    · rw [hsmB]
      exact dictGe_refl _
    · rw [hflB]
      exact dictGe_refl _
    · rw [hhcB]
      exact fun c hc => hc
    · rw [hfxB, hfi]
  refine ⟨hidxB, hmono, hfxB, hsmB, hflB, hhcB, ?_, ?_⟩
  · intro r hr
    rw [memOfB_iff]
    obtain ⟨i, hgi⟩ := List.mem_iff_get?.mp hr
    have hgiA : (sizePhase st files []).1.file_info.get? i = some r := by
      rw [hfiA, ← hfiB]
      exact hgi
    rcases sizePhase_records files st [] hfi i r hgiA with h1 | ⟨h2, _, _, _, h6⟩
    · have hmem : r ∈ st.file_info := List.get?_mem h1
      have := (memOfB_iff st.size_dict r.file_size r.index).mp (hwf.2.2.2.2 r hmem)
      rw [hszB]
      apply dictGe_memOf (mergeDict_grow _ _)
      rw [hszA]
      exact this
    · obtain ⟨e, he, he1, he2⟩ := h6
      have := mergeDict_temp_mem (sizePhase st files []).2
        (sizePhase st files []).1.size_dict e he i he2
      rw [hszB, h2, ← he1]
      exact this
  · intro kp i hpi
    rw [← heqB] at hpi
    obtain ⟨v, hv, hiv, hlen⟩ := mergeDict_yield_collision _ _ kp i hpi
    obtain ⟨e, he, he1, he2⟩ := mergeDict_yield_src _ _ kp i hpi
    rcases sizePhase_temp_src files st [] hfi kp i ⟨e, he, he1, he2⟩ with
      h1 | ⟨r, hr, h2, h3, h4, h5len⟩
    · obtain ⟨e0, he0, _⟩ := h1
      cases he0
    · refine ⟨r, v, ?_, h3, ?_, hiv, hlen, ?_, h5len⟩
      · rw [hfiB, ← hfiA]
        exact hr
      · rw [hszB]
        exact hv
      · exact List.mem_map_of_mem Prod.fst h4

theorem alGet_mem {κ α : Type} [DecidableEq κ] {g : List (κ × α)} {k : κ} {v : α}
    (h : alGet g k = some v) : (k, v) ∈ g := by
  induction g with
  | nil => cases h
  | cons kv rest ih =>
    unfold alGet at h
    by_cases hk : kv.1 = k
    · rw [if_pos hk] at h
      injection h with h
      have he : (k, v) = kv := by rw [← hk, ← h]
      rw [he]
      exact List.mem_cons_self _ _
    · rw [if_neg hk] at h
      exact List.mem_cons_of_mem _ (ih h)

theorem mem_alSet_elim {κ α : Type} [DecidableEq κ] {g : List (κ × α)} {k : κ} {v : α}
    {kv0 : κ × α} (h : kv0 ∈ alSet g k v) : kv0 ∈ g ∨ kv0 = (k, v) := by
  induction g with
  | nil =>
    unfold alSet at h
    rcases List.mem_singleton.mp h with rfl
    exact Or.inr rfl
  | cons kv rest ih =>
    unfold alSet at h
    by_cases hk : kv.1 = k
    · rw [if_pos hk] at h
      rcases List.mem_cons.mp h with rfl | h2
      · exact Or.inr rfl
      · exact Or.inl (List.mem_cons_of_mem _ h2)
    · rw [if_neg hk] at h
      rcases List.mem_cons.mp h with rfl | h2
      · exact Or.inl (List.mem_cons_self _ _)
      · rcases ih h2 with h3 | h3
        · exact Or.inl (List.mem_cons_of_mem _ h3)
        · exact Or.inr h3

theorem mergeDict_entry_mem {κ : Type} [DecidableEq κ] (t : List (κ × List Nat)) :
    ∀ (g : List (κ × List Nat)) (kv : κ × List Nat), kv ∈ (mergeDict g t).1 →
      ∀ i ∈ kv.2, (∃ kv0 ∈ g, kv0.1 = kv.1 ∧ i ∈ kv0.2) ∨ tmem t kv.1 i := by
  induction t with
  | nil =>
    intro g kv hkv i hi
    exact Or.inl ⟨kv, hkv, rfl, hi⟩
  | cons e rest ih =>
    intro g kv hkv i hi
    rw [mergeDict_cons_fst] at hkv
    rcases ih _ kv hkv i hi with ⟨kv0, hkv0, h1, h2⟩ | h3
    · rcases mem_alSet_elim hkv0 with h4 | h4
      · exact Or.inl ⟨kv0, h4, h1, h2⟩
      · rw [h4] at h1 h2
        dsimp only at h1 h2
        rcases mem_slUnion.mp h2 with h5 | h5
        · cases hg : alGet g e.1 with
          | none =>
            unfold alGetD at h5
            rw [hg] at h5
            cases h5
          | some v0 =>
            unfold alGetD at h5
            rw [hg] at h5
            exact Or.inl ⟨(e.1, v0), alGet_mem hg, h1, h5⟩
        · exact Or.inr ⟨e, List.mem_cons_self _ _, h1, h5⟩
    · obtain ⟨e2, he2, h6, h7⟩ := h3
      exact Or.inr ⟨e2, List.mem_cons_of_mem _ he2, h6, h7⟩

theorem hashOk_of_size {st : JustOne} {c : FileIndex × FilePath2 × Bool}
    (hb : c.2.2 = true) (h : SizeCollision st c.1) : HashOk st c := by
  unfold HashOk
  rw [hb, if_pos rfl]
  exact h

theorem hashOk_of_small {st : JustOne} {c : FileIndex × FilePath2 × Bool}
    (hb : c.2.2 = false) (h : SmallCollision st c.1) : HashOk st c := by
  unfold HashOk
  rw [hb, if_neg (by decide : ¬ (false = true))]
  exact h

theorem hashPhasePost_stMono {a b : JustOne} (h : HashPhasePost a b) : StMono a b := by
  obtain ⟨hlen, hsz, hsm, hfl, hfx, hrm, hhc⟩ := h
  refine ⟨hrm, ?_, ?_, ?_, hhc, hfx⟩
  · rw [hsz]
    exact dictGe_refl _
  · rw [hsm]
    exact dictGe_refl _
  · rw [hfl]
    exact dictGe_refl _

theorem wf_transport {stA stB : JustOne} (hwfA : Wf stA)
    (hlen : stB.file_info.length = stA.file_info.length)
    (hrm : RecMono stA stB) (hidxB : IdxOk stB)
    (hsz : stB.size_dict = stA.size_dict)
    (hsm : stB.small_hash_dict = stA.small_hash_dict)
    (hfl : stB.full_hash_dict = stA.full_hash_dict)
    (hfx : stB.file_index = stA.file_index) : Wf stB := by
  refine ⟨?_, idxOk_getD hidxB, ?_, ?_, ?_⟩
  · rw [hfx]
    exact hwfA.1
  · intro kv hkv i hi
    rw [hsm] at hkv
    exact recHasSmall_mono hrm (hwfA.2.2.1 kv hkv i hi)
  · intro kv hkv i hi
    rw [hfl] at hkv
    exact recHasFull_mono hrm (hwfA.2.2.2.1 kv hkv i hi)
  · intro r hr
    obtain ⟨i, hgi⟩ := List.mem_iff_get?.mp hr
    obtain ⟨rA, hgA, hle⟩ := recMono_back hlen hrm hgi
    have := hwfA.2.2.2.2 rA (List.get?_mem hgA)
    rw [hsz, hle.2.2.1, hle.1]
    exact this

theorem core_post (hf : List Nat → HashValue) (fs : FS) (st : JustOne)
    (files : List (FilePath2 × FileSize)) (st2 : JustOne)
    (res : Except PyErr (List FileIndex))
    (heq : update_multiple_files_with_size hf fs st files = (st2, res))
    (hwf : Wf st) :
    CorePost st st2 ∧
    (∀ idxs, res = .ok idxs → ∀ i ∈ idxs, ∃ r, st2.file_info.get? i = some r ∧
      r.file ∈ files.map Prod.fst ∧ st.file_info.length ≤ i ∧ FullCollision st2 i) := by
  simp only [update_multiple_files_with_size] at heq
  obtain ⟨stB, pairs1, hst1⟩ :
      ∃ stB pairs1, merge_size_dict (sizePhase st files []).1 (sizePhase st files []).2
        = (stB, pairs1) := ⟨_, _, rfl⟩
  rw [hst1] at heq
  dsimp only at heq
  obtain ⟨hidxB, hmonoB, hfxB, hsmB, hflB, hhcB, hsz5B, hpairs1⟩ :=
    stage1_post files st stB pairs1 hst1 hwf
  have hwfB : Wf stB := by
    refine ⟨hfxB, idxOk_getD hidxB, ?_, ?_, hsz5B⟩
    · intro kv hkv i hi
      rw [hsmB] at hkv
      exact recHasSmall_mono hmonoB.1 (hwf.2.2.1 kv hkv i hi)
    · intro kv hkv i hi
      rw [hflB] at hkv
      exact recHasFull_mono hmonoB.1 (hwf.2.2.2.1 kv hkv i hi)
  rcases h3eq : smallHashLoop hf fs stB pairs1 [] with ⟨st3, res3⟩
  rw [h3eq] at heq
  obtain ⟨hidx3, hpp3, hcalls3, htres3⟩ :=
    smallHashLoop_post hf fs pairs1 stB [] st3 res3 h3eq hidxB
      (fun k i ht => by obtain ⟨e, he, _⟩ := ht; cases he)
  obtain ⟨hlen3, hsz3, hsm3, hfl3, hfx3, hrm3, hhc3⟩ := hpp3
  have hwf3 : Wf st3 := wf_transport hwfB hlen3 hrm3 hidx3 hsz3 hsm3 hfl3 hfx3
  have hmono3 : StMono st st3 :=
    stMono_trans hmonoB (hashPhasePost_stMono ⟨hlen3, hsz3, hsm3, hfl3, hfx3, hrm3, hhc3⟩)
  have hok3 : ∀ c ∈ st3.hash_calls, c ∈ st.hash_calls ∨ HashOk st3 c := by
    intro c hc
    rcases hcalls3 c hc with h1 | ⟨hb, k, hkp⟩
    · rw [hhcB] at h1
      exact Or.inl h1
    · right
      obtain ⟨r, v, hgB, hfsz, halg, hiv, hlenv, hfile, _⟩ := hpairs1 k c.1 hkp
      obtain ⟨r3, hr3, hle3⟩ := hrm3 c.1 r hgB
      refine hashOk_of_size hb ⟨r3, v, hr3, ?_, hiv, hlenv⟩
      rw [hle3.2.2.1, hfsz, hsz3]
      exact halg
  cases res3 with
  | error e =>
    dsimp only at heq
    injection heq with heqA heqB
    subst heqA
    refine ⟨⟨hwf3, hmono3, hok3⟩, ?_⟩
    intro idxs hcontra
    rw [← heqB] at hcontra
    cases hcontra
  | ok small_temp =>
    obtain ⟨htA, htB⟩ := htres3 small_temp rfl
    obtain ⟨stD, idxs2, hst2m⟩ :
        ∃ stD idxs2, merge_small_hash_dict st3 small_temp = (stD, idxs2) := ⟨_, _, rfl⟩
    dsimp only at heq
    rw [hst2m] at heq
    dsimp only at heq
    unfold merge_small_hash_dict at hst2m
    injection hst2m with h2A h2B
    have hfiD : stD.file_info = st3.file_info := by rw [← h2A]
    have hszD : stD.size_dict = st3.size_dict := by rw [← h2A]
    have hflD : stD.full_hash_dict = st3.full_hash_dict := by rw [← h2A]
    have hhcD : stD.hash_calls = st3.hash_calls := by rw [← h2A]
    have hfxD : stD.file_index = st3.file_index := by rw [← h2A]
    have hsmD : stD.small_hash_dict =
        (mergeDict st3.small_hash_dict small_temp).1 := by rw [← h2A]
    have hidxD : IdxOk stD := by
      intro i r hg
      apply hidx3 i r
      rw [← hfiD]
      exact hg
    have hrmD : RecMono st3 stD := by
      intro i r hg
      exact ⟨r, by rw [hfiD]; exact hg, recLe_refl r⟩
    have hmonoD1 : StMono st3 stD := by
      refine ⟨hrmD, ?_, ?_, ?_, ?_, hfxD⟩
      · rw [hszD]; exact dictGe_refl _
      · rw [hsmD]; exact mergeDict_grow _ _
      · rw [hflD]; exact dictGe_refl _
      · rw [hhcD]; exact fun c hc => hc
    have hwfD : Wf stD := by
      refine ⟨by rw [hfxD, hfx3, hfxB], idxOk_getD hidxD, ?_, ?_, ?_⟩
      · intro kv hkv i hi
        rw [hsmD] at hkv
        rcases mergeDict_entry_mem small_temp st3.small_hash_dict kv hkv i hi with
          ⟨kv0, hkv0, hk0, hi0⟩ | ht
        · have h5 := hwf3.2.2.1 kv0 hkv0 i hi0
          unfold recHasSmall at h5 ⊢
          rw [hfiD]
          exact h5
        · obtain ⟨e, he, he1, he2⟩ := ht
          have h5 := htA kv.1 i ⟨e, he, he1, he2⟩
          unfold recHasSmall at h5 ⊢
          rw [hfiD]
          exact h5
      · intro kv hkv i hi
        rw [hflD] at hkv
        have h5 := hwf3.2.2.2.1 kv hkv i hi
        unfold recHasFull at h5 ⊢
        rw [hfiD]
        exact h5
      · intro r hr
        rw [hfiD] at hr
        have h5 := hwf3.2.2.2.2 r hr
        rw [hszD]
        exact h5
    have hidxs2 : ∀ i ∈ idxs2, SmallCollision stD i ∧ ∃ k2, (k2, i) ∈ pairs1 := by
      intro i hi
      rw [← h2B] at hi
      obtain ⟨p, hp, hpe⟩ := List.mem_map.mp hi
      rcases p with ⟨kk, ii⟩
      dsimp only at hpe
      subst hpe
      obtain ⟨v, hv, hiv, hlenv⟩ :=
        mergeDict_yield_collision small_temp st3.small_hash_dict kk ii hp
      constructor
      · refine ⟨kk, v, ?_, hiv, hlenv⟩
        rw [hsmD]
        exact hv
      · obtain ⟨e, he, he1, he2⟩ :=
          mergeDict_yield_src small_temp st3.small_hash_dict kk ii hp
        rcases htB kk ii ⟨e, he, he1, he2⟩ with ⟨e0, he0, _⟩ | hk2
        · cases he0
        · exact hk2
    rcases h5eq : fullHashLoop hf fs stD idxs2 [] with ⟨st5, res5⟩
    rw [h5eq] at heq
    obtain ⟨hidx5, hpp5, hcalls5, htres5⟩ :=
      fullHashLoop_post hf fs idxs2 stD [] st5 res5 h5eq hidxD
        (fun k i ht => by obtain ⟨e, he, _⟩ := ht; cases he)
    obtain ⟨hlen5, hsz5, hsm5, hfl5, hfx5, hrm5, hhc5⟩ := hpp5
    have hpp5b : HashPhasePost stD st5 := ⟨hlen5, hsz5, hsm5, hfl5, hfx5, hrm5, hhc5⟩
    have hwf5 : Wf st5 := wf_transport hwfD hlen5 hrm5 hidx5 hsz5 hsm5 hfl5 hfx5
    have hmono5 : StMono st st5 :=
      stMono_trans (stMono_trans hmono3 hmonoD1) (hashPhasePost_stMono hpp5b)
    have hok5 : ∀ c ∈ st5.hash_calls, c ∈ st.hash_calls ∨ HashOk st5 c := by
      intro c hc
      rcases hcalls5 c hc with h1 | ⟨hb, hidx2mem⟩
      · rw [hhcD] at h1
        rcases hok3 c h1 with h2 | h2
        · exact Or.inl h2
        · exact Or.inr
            (hashOk_mono (stMono_trans hmonoD1 (hashPhasePost_stMono hpp5b)) h2)
      · right
        obtain ⟨hcol, _⟩ := hidxs2 c.1 hidx2mem
        exact hashOk_mono (hashPhasePost_stMono hpp5b) (hashOk_of_small hb hcol)
    cases res5 with
    | error e =>
      dsimp only at heq
      injection heq with heqA heqB
      subst heqA
      refine ⟨⟨hwf5, hmono5, hok5⟩, ?_⟩
      intro idxs hcontra
      rw [← heqB] at hcontra
      cases hcontra
    | ok full_temp =>
      obtain ⟨ht5A, ht5B⟩ := htres5 full_temp rfl
      obtain ⟨stF, yields3, hst3m⟩ :
          ∃ stF yields3, merge_full_hash_dict st5 full_temp = (stF, yields3) := ⟨_, _, rfl⟩
      dsimp only at heq
      rw [hst3m] at heq
      dsimp only at heq
      injection heq with heqA heqB
      subst heqA
      unfold merge_full_hash_dict at hst3m
      injection hst3m with h3A h3B
      have hfiF : stF.file_info = st5.file_info := by rw [← h3A]
      have hszF : stF.size_dict = st5.size_dict := by rw [← h3A]
      have hsmF : stF.small_hash_dict = st5.small_hash_dict := by rw [← h3A]
      have hhcF : stF.hash_calls = st5.hash_calls := by rw [← h3A]
      have hfxF : stF.file_index = st5.file_index := by rw [← h3A]
      have hflF : stF.full_hash_dict =
          (mergeDict st5.full_hash_dict full_temp).1 := by rw [← h3A]
      have hidxF : IdxOk stF := by
        intro i r hg
        apply hidx5 i r
        rw [← hfiF]
        exact hg
      have hrmF : RecMono st5 stF := by
        intro i r hg
        exact ⟨r, by rw [hfiF]; exact hg, recLe_refl r⟩
      have hmonoF1 : StMono st5 stF := by
        refine ⟨hrmF, ?_, ?_, ?_, ?_, hfxF⟩
        · rw [hszF]; exact dictGe_refl _
        · rw [hsmF]; exact dictGe_refl _
        · rw [hflF]; exact mergeDict_grow _ _
        · rw [hhcF]; exact fun c hc => hc
      have hwfF : Wf stF := by
        refine ⟨by rw [hfxF, hfx5, hfxD, hfx3, hfxB], idxOk_getD hidxF, ?_, ?_, ?_⟩
        · intro kv hkv i hi
          rw [hsmF] at hkv
          have h5 := hwf5.2.2.1 kv hkv i hi
          unfold recHasSmall at h5 ⊢
          rw [hfiF]
          exact h5
        · intro kv hkv i hi
          rw [hflF] at hkv
          rcases mergeDict_entry_mem full_temp st5.full_hash_dict kv hkv i hi with
            ⟨kv0, hkv0, hk0, hi0⟩ | ht
          · have h5 := hwf5.2.2.2.1 kv0 hkv0 i hi0
            unfold recHasFull at h5 ⊢
            rw [hfiF]
            exact h5
          · obtain ⟨e, he, he1, he2⟩ := ht
            have h5 := ht5A kv.1 i ⟨e, he, he1, he2⟩
            unfold recHasFull at h5 ⊢
            rw [hfiF]
            exact h5
        · intro r hr
          rw [hfiF] at hr
          have h5 := hwf5.2.2.2.2 r hr
          rw [hszF]
          exact h5
      refine ⟨⟨hwfF, stMono_trans hmono5 hmonoF1, ?_⟩, ?_⟩
      · intro c hc
        rw [hhcF] at hc
        rcases hok5 c hc with h1 | h1
        · exact Or.inl h1
        · exact Or.inr (hashOk_mono hmonoF1 h1)
      · intro idxs hres i hiidx
        rw [← heqB] at hres
        injection hres with hres2
        rw [← hres2] at hiidx
        have hiy : i ∈ yields3 := by
          rcases (@mem_slUnion [] yields3 i).mp hiidx with h0 | h0
          · cases h0
          · exact h0
        rw [← h3B] at hiy
        obtain ⟨p, hp, hpe⟩ := List.mem_map.mp hiy
        rcases p with ⟨kk, ii⟩
        dsimp only at hpe
        subst hpe
        obtain ⟨e, he, he1, he2⟩ :=
          mergeDict_yield_src full_temp st5.full_hash_dict kk ii hp
        rcases ht5B kk ii ⟨e, he, he1, he2⟩ with ⟨e0, he0, _⟩ | hidx2mem
        · cases he0
        · obtain ⟨_, k2, hk2⟩ := hidxs2 ii hidx2mem
          obtain ⟨r, v, hgB, hfs2, halg2, hiv2, hlenv2, hfile, hfresh⟩ := hpairs1 k2 ii hk2
          obtain ⟨r3, hr3, hle3⟩ := hrm3 ii r hgB
          obtain ⟨rD, hrD, hleD⟩ := hrmD ii r3 hr3
          obtain ⟨r5, hr5, hle5⟩ := hrm5 ii rD hrD
          obtain ⟨rF, hrF, hleF⟩ := hrmF ii r5 hr5
          obtain ⟨vF, hvF, hivF, hlenF⟩ :=
            mergeDict_yield_collision full_temp st5.full_hash_dict kk ii hp
          refine ⟨rF, hrF, ?_, hfresh, ?_⟩
          · rw [hleF.2.1, hle5.2.1, hleD.2.1, hle3.2.1]
            exact hfile
          · refine ⟨kk, vF, ?_, hivF, hlenF⟩
            rw [hflF]
            exact hvF

theorem corePost_refl {st : JustOne} (hwf : Wf st) : CorePost st st :=
  ⟨hwf, stMono_refl st, fun c hc => Or.inl hc⟩

theorem corePost_trans {a b c : JustOne} (h1 : CorePost a b) (h2 : CorePost b c) :
    CorePost a c := by
  obtain ⟨hwfb, hm1, hc1⟩ := h1
  obtain ⟨hwfc, hm2, hc2⟩ := h2
  refine ⟨hwfc, stMono_trans hm1 hm2, ?_⟩
  intro x hx
  rcases hc2 x hx with h3 | h3
  · rcases hc1 x h3 with h4 | h4
    · exact Or.inl h4
    · exact Or.inr (hashOk_mono hm2 h4)
  · exact Or.inr h3

theorem statPhase_ok_map (fs : FS) (files : List FilePath2) :
    ∀ fws, statPhase fs files = .ok fws → fws.map Prod.fst = files := by
  induction files with
  | nil =>
    intro fws h
    injection h with h
    rw [← h]
    rfl
  | cons f rest ih =>
    intro fws h
    unfold statPhase at h
    split at h
    · cases h
    · rename_i s hs
      split at h
      · cases h
      · cases hrest : statPhase fs rest with
        | error e => rw [hrest] at h; cases h
        | ok l =>
          rw [hrest] at h
          injection h with h
          rw [← h]
          simp [ih l hrest]

theorem statPhase_error_form (fs : FS) (files : List FilePath2) :
    ∀ e, statPhase fs files = .error e →
      e = .osError ∨ ∃ m, e = .updateErrorMsg m := by
  induction files with
  | nil => intro e h; cases h
  | cons f rest ih =>
    intro e h
    unfold statPhase at h
    split at h
    · injection h with h
      exact Or.inl h.symm
    · rename_i s hs
      split at h
      · injection h with h
        exact Or.inr ⟨"Not a Regular File: " ++ f, h.symm⟩
      · cases hrest : statPhase fs rest with
        | error e2 =>
          rw [hrest] at h
          injection h with h
          rw [← h]
          exact ih e2 hrest
        | ok l => rw [hrest] at h; cases h

theorem statPhase_bad (fs : FS) (files : List FilePath2) (p : FilePath2)
    (hp : p ∈ files)
    (hbad : fs.stat p = none ∨ ∃ s, fs.stat p = some s ∧ s.isReg = false) :
    ∃ e, statPhase fs files = .error e ∧
      (e = .osError ∨ ∃ m, e = .updateErrorMsg m) := by
  induction files with
  | nil => cases hp
  | cons f rest ih =>
    unfold statPhase
    cases hs : fs.stat f with
    | none => exact ⟨.osError, rfl, Or.inl rfl⟩
    | some s =>
      dsimp only
      by_cases hreg : s.isReg = false
      · rw [if_pos hreg]
        exact ⟨.updateErrorMsg ("Not a Regular File: " ++ f), rfl,
          Or.inr ⟨"Not a Regular File: " ++ f, rfl⟩⟩
      · rw [if_neg hreg]
        have hpr : p ∈ rest := by
          rcases List.mem_cons.mp hp with rfl | h2
          · exfalso
            rcases hbad with h3 | ⟨s2, h3, h4⟩
            · rw [hs] at h3; cases h3
            · rw [hs] at h3
              injection h3 with h3
              rw [← h3] at h4
              exact hreg h4
          · exact h2
        obtain ⟨e, he, hform⟩ := ih hpr
        rw [he]
        exact ⟨e, rfl, hform⟩

theorem update_multiple_files_post (hf : List Nat → HashValue) (fs : FS) (st : JustOne)
    (files : List FilePath2) (st2 : JustOne) (res : Except PyErr (List FileIndex))
    (heq : update_multiple_files hf fs st files = (st2, res)) (hwf : Wf st) :
    CorePost st st2 ∧
    (∀ idxs, res = .ok idxs → ∀ i ∈ idxs, ∃ r, st2.file_info.get? i = some r ∧
      r.file ∈ files ∧ st.file_info.length ≤ i ∧ FullCollision st2 i) := by
  unfold update_multiple_files at heq
  cases hsp : statPhase fs files with
  | error e =>
    rw [hsp] at heq
    injection heq with h1 h2
    subst h1
    refine ⟨corePost_refl hwf, ?_⟩
    intro idxs hcontra
    rw [← h2] at hcontra
    cases hcontra
  | ok fws =>
    rw [hsp] at heq
    obtain ⟨hcp, hpaths⟩ := core_post hf fs st fws st2 res heq hwf
    refine ⟨hcp, ?_⟩
    intro idxs hres i hi
    obtain ⟨r, hr, hfile, hfresh, hcol⟩ := hpaths idxs hres i hi
    refine ⟨r, hr, ?_, hfresh, hcol⟩
    rw [← statPhase_ok_map fs files fws hsp]
    exact hfile

theorem update_single_directory_post (hf : List Nat → HashValue) (fs : FS) (st : JustOne)
    (d : FilePath2) (st2 : JustOne) (res : Except PyErr (List FileIndex))
    (heq : update_single_directory hf fs st d = (st2, res)) (hwf : Wf st) :
    CorePost st st2 := by
  unfold update_single_directory at heq
  split at heq
  · injection heq with h1 h2
    subst h1
    exact corePost_refl hwf
  · injection heq with h1 h2
    subst h1
    exact corePost_refl hwf
  · rename_i fws hscan
    exact (core_post hf fs st fws st2 res heq hwf).1

theorem update_multiple_directories_post (hf : List Nat → HashValue) (fs : FS)
    (dirs : List FilePath2) :
    ∀ (st : JustOne) (acc : List FileIndex) (st2 : JustOne)
      (res : Except PyErr (List FileIndex)),
      update_multiple_directories hf fs st dirs acc = (st2, res) → Wf st →
      CorePost st st2 := by
  induction dirs with
  | nil =>
    intro st acc st2 res heq hwf
    unfold update_multiple_directories at heq
    injection heq with h1 h2
    subst h1
    exact corePost_refl hwf
  | cons d rest ih =>
    intro st acc st2 res heq hwf
    unfold update_multiple_directories at heq
    rcases hd : update_single_directory hf fs st d with ⟨st1, res1⟩
    rw [hd] at heq
    have hcp1 : CorePost st st1 := update_single_directory_post hf fs st d st1 res1 hd hwf
    cases res1 with
    | error e =>
      dsimp only at heq
      injection heq with h1 h2
      subst h1
      exact hcp1
    | ok s =>
      dsimp only at heq
      exact corePost_trans hcp1 (ih st1 (slUnion acc s) st2 res heq hcp1.1)

theorem mapPaths_ok_mem (st : JustOne) (idxs : List FileIndex) :
    ∀ paths, mapPaths st idxs = .ok paths → ∀ p ∈ paths,
      ∃ i ∈ idxs, ∃ r, st.file_info.get? i = some r ∧ r.file = p := by
  induction idxs with
  | nil =>
    intro paths h p hp
    injection h with h
    rw [← h] at hp
    cases hp
  | cons i rest ih =>
    intro paths h p hp
    unfold mapPaths at h
    split at h
    · cases h
    · rename_i info hinfo
      cases hrest : mapPaths st rest with
      | error e => rw [hrest] at h; cases h
      | ok l =>
        rw [hrest] at h
        injection h with h
        rw [← h] at hp
        rcases List.mem_cons.mp hp with rfl | hp2
        · unfold get_file_info at hinfo
          split at hinfo
          · cases hinfo
          · rename_i r hr
            injection hinfo with hinfo
            refine ⟨i, List.mem_cons_self _ _, r, hr, ?_⟩
            rw [← hinfo]
        · obtain ⟨i2, hi2, r, hr, hfile⟩ := ih l hrest p hp2
          exact ⟨i2, List.mem_cons_of_mem _ hi2, r, hr, hfile⟩

theorem update_post (hf : List Nat → HashValue) (fs : FS) (st : JustOne)
    (args : List FilePath2) (st2 : JustOne) (res : Except PyErr (List FilePath2))
    (heq : JustOne.update hf fs st args = (st2, res)) (hwf : Wf st) :
    CorePost st st2 := by
  unfold JustOne.update at heq
  cases args with
  | nil =>
    injection heq with h1 h2
    subst h1
    exact corePost_refl hwf
  | cons first rest =>
    dsimp only at heq
    by_cases hdir : pathIsDir fs first = true
    · rw [if_pos hdir] at heq
      rcases hu : update_multiple_directories hf fs st (first :: rest) [] with ⟨stU, resU⟩
      rw [hu] at heq
      have hcp := update_multiple_directories_post hf fs (first :: rest) st [] stU resU hu hwf
      cases resU with
      | error e =>
        dsimp only at heq
        injection heq with h1 h2
        subst h1
        exact hcp
      | ok idxs =>
        dsimp only at heq
        split at heq
        · injection heq with h1 h2
          subst h1
          exact hcp
        · injection heq with h1 h2
          subst h1
          exact hcp
    · rw [if_neg hdir] at heq
      rcases hu : update_multiple_files hf fs st (first :: rest) with ⟨stU, resU⟩
      rw [hu] at heq
      have hcp := (update_multiple_files_post hf fs st (first :: rest) stU resU hu hwf).1
      cases resU with
      | error e =>
        dsimp only at heq
        injection heq with h1 h2
        subst h1
        exact hcp
      | ok idxs =>
        dsimp only at heq
        split at heq
        · injection heq with h1 h2
          subst h1
          exact hcp
        · injection heq with h1 h2
          subst h1
          exact hcp

theorem update_single_directory_ret (hf : List Nat → HashValue) (fs : FS) (st : JustOne)
    (d : FilePath2) (st2 : JustOne) (s : List FileIndex)
    (heq : update_single_directory hf fs st d = (st2, .ok s)) (hwf : Wf st) :
    ∀ i ∈ s, ∃ r, st2.file_info.get? i = some r ∧ st.file_info.length ≤ i ∧
      FullCollision st2 i := by
  unfold update_single_directory at heq
  split at heq
  · injection heq with h1 h2
    cases h2
  · injection heq with h1 h2
    cases h2
  · rename_i fws hscan
    intro i hi
    obtain ⟨r, hr, _, hfresh, hcol⟩ :=
      (core_post hf fs st fws st2 (.ok s) heq hwf).2 s rfl i hi
    exact ⟨r, hr, hfresh, hcol⟩

theorem update_multiple_directories_ret (hf : List Nat → HashValue) (fs : FS)
    (dirs : List FilePath2) :
    ∀ (st : JustOne) (acc : List FileIndex) (st2 : JustOne) (idxs : List FileIndex),
      update_multiple_directories hf fs st dirs acc = (st2, .ok idxs) → Wf st →
      ∀ i ∈ idxs, i ∈ acc ∨ ∃ r, st2.file_info.get? i = some r ∧
        st.file_info.length ≤ i ∧ FullCollision st2 i := by
  induction dirs with
  | nil =>
    intro st acc st2 idxs heq hwf i hi
    unfold update_multiple_directories at heq
    injection heq with h1 h2
    injection h2 with h2
    rw [h2]
    exact Or.inl hi
  | cons d rest ih =>
    intro st acc st2 idxs heq hwf i hi
    unfold update_multiple_directories at heq
    rcases hd : update_single_directory hf fs st d with ⟨st1, res1⟩
    rw [hd] at heq
    cases res1 with
    | error e =>
      dsimp only at heq
      injection heq with h1 h2
      cases h2
    | ok s =>
      dsimp only at heq
      have hcp1 : CorePost st st1 :=
        update_single_directory_post hf fs st d st1 (.ok s) hd hwf
      have hrestPost : CorePost st1 st2 :=
        update_multiple_directories_post hf fs rest st1 (slUnion acc s) st2 (.ok idxs)
          heq hcp1.1
      rcases ih st1 (slUnion acc s) st2 idxs heq hcp1.1 i hi with
        h1 | ⟨r, hr, hfresh, hcol⟩
      · rcases mem_slUnion.mp h1 with h2 | h2
        · exact Or.inl h2
        · right
          obtain ⟨r1, hr1, hfresh1, hcol1⟩ :=
            update_single_directory_ret hf fs st d st1 s hd hwf i h2
          obtain ⟨r2, hr2, _⟩ := hrestPost.2.1.1 i r1 hr1
          exact ⟨r2, hr2, hfresh1, fullCollision_mono hrestPost.2.1.2.2.2.1 hcol1⟩
      · right
        exact ⟨r, hr, le_trans (recMono_length_le hcp1.2.1.1) hfresh, hcol⟩

theorem update_files_subset (hf : List Nat → HashValue) (fs : FS) (st : JustOne)
    (f : FilePath2) (rest : List FilePath2) (st2 : JustOne) (paths : List FilePath2)
    (hwf : Wf st) (hmode : pathIsDir fs f = false)
    (heq : JustOne.update hf fs st (f :: rest) = (st2, .ok paths)) :
    ∀ p ∈ paths, p ∈ f :: rest := by
  unfold JustOne.update at heq
  dsimp only at heq
  have hno : ¬ (pathIsDir fs f = true) := by rw [hmode]; exact Bool.false_ne_true
  rw [if_neg hno] at heq
  rcases hu : update_multiple_files hf fs st (f :: rest) with ⟨stU, resU⟩
  rw [hu] at heq
  cases resU with
  | error e =>
    dsimp only at heq
    injection heq with h1 h2
    cases h2
  | ok idxs =>
    dsimp only at heq
    cases hm : mapPaths stU idxs with
    | error e =>
      rw [hm] at heq
      dsimp only at heq
      injection heq with h1 h2
      cases h2
    | ok paths2 =>
      rw [hm] at heq
      dsimp only at heq
      injection heq with h1 h2
      injection h2 with h2
      subst h1
      subst h2
      intro p hp
      obtain ⟨i, hi, r, hr, hfile⟩ := mapPaths_ok_mem stU idxs paths2 hm p hp
      obtain ⟨r2, hr2, hfl2, _, _⟩ :=
        (update_multiple_files_post hf fs st (f :: rest) stU (.ok idxs) hu hwf).2
          idxs rfl i hi
      rw [hr] at hr2
      injection hr2 with hr2
      rw [← hfile, hr2]
      exact hfl2

theorem update_ret (hf : List Nat → HashValue) (fs : FS) (st : JustOne)
    (args : List FilePath2) (st2 : JustOne) (paths : List FilePath2)
    (hwf : Wf st) (heq : JustOne.update hf fs st args = (st2, .ok paths)) :
    ∀ p ∈ paths, ∃ i r, st2.file_info.get? i = some r ∧ r.file = p ∧
      st.file_info.length ≤ i ∧ FullCollision st2 i := by
  unfold JustOne.update at heq
  cases args with
  | nil =>
    injection heq with h1 h2
    injection h2 with h2
    intro p hp
    rw [← h2] at hp
    cases hp
  | cons first rest =>
    dsimp only at heq
    by_cases hdir : pathIsDir fs first = true
    · rw [if_pos hdir] at heq
      rcases hu : update_multiple_directories hf fs st (first :: rest) [] with ⟨stU, resU⟩
      rw [hu] at heq
      cases resU with
      | error e =>
        dsimp only at heq
        injection heq with h1 h2
        cases h2
      | ok idxs =>
        dsimp only at heq
        cases hm : mapPaths stU idxs with
        | error e =>
          rw [hm] at heq
          dsimp only at heq
          injection heq with h1 h2
          cases h2
        | ok paths2 =>
          rw [hm] at heq
          dsimp only at heq
          injection heq with h1 h2
          injection h2 with h2
          subst h1
          subst h2
          intro p hp
          obtain ⟨i, hi, r, hr, hfile⟩ := mapPaths_ok_mem stU idxs paths2 hm p hp
          rcases update_multiple_directories_ret hf fs (first :: rest) st [] stU idxs
              hu hwf i hi with h0 | ⟨r2, hr2, hfresh, hcol⟩
          · cases h0
          · exact ⟨i, r, hr, hfile, hfresh, hcol⟩
    · rw [if_neg hdir] at heq
      rcases hu : update_multiple_files hf fs st (first :: rest) with ⟨stU, resU⟩
      rw [hu] at heq
      cases resU with
      | error e =>
        dsimp only at heq
        injection heq with h1 h2
        cases h2
      | ok idxs =>
        dsimp only at heq
        cases hm : mapPaths stU idxs with
        | error e =>
          rw [hm] at heq
          dsimp only at heq
          injection heq with h1 h2
          cases h2
        | ok paths2 =>
          rw [hm] at heq
          dsimp only at heq
          injection heq with h1 h2
          injection h2 with h2
          subst h1
          subst h2
          intro p hp
          obtain ⟨i, hi, r, hr, hfile⟩ := mapPaths_ok_mem stU idxs paths2 hm p hp
          obtain ⟨r2, hr2, _, hfresh, hcol⟩ :=
            (update_multiple_files_post hf fs st (first :: rest) stU (.ok idxs) hu hwf).2
              idxs rfl i hi
          exact ⟨i, r, hr, hfile, hfresh, hcol⟩

/-! ## Concrete fixtures used by the claim theorems. -/

/-- Identity digest: a legitimate instance of the pluggable hash-function
collaborator (deterministic, and collision-free on byte strings). -/
def idHash : List Nat → HashValue := fun l => l

/-- Two regular files `a` and `b` with identical one-byte content. -/
def fsTwoSame : FS where
  stat p := if p = "a" ∨ p = "b" then some ⟨true, false, 1⟩ else none
  read p := if p = "a" ∨ p = "b" then some [7] else none
  scan _ := .error .notADir

/-- Two regular files `f` and `g` with identical one-byte content. -/
def fsFG : FS where
  stat p := if p = "f" ∨ p = "g" then some ⟨true, false, 1⟩ else none
  read p := if p = "f" ∨ p = "g" then some [7] else none
  scan _ := .error .notADir

/-- Four same-size regular files; `c` fails on read (vanished between stat
and open), the others have distinct contents. -/
def fsAbort : FS where
  stat p := if p = "a" ∨ p = "b" ∨ p = "c" ∨ p = "d" then some ⟨true, false, 1⟩ else none
  read p :=
    if p = "a" then some [1]
    else if p = "b" then some [2]
    else if p = "d" then some [3] else none
  scan _ := .error .notADir

/-- Two 1025-byte regular files agreeing on their first 1024 bytes and
differing in the last byte: same size, same prefix hash, different full
hash. -/
def fsLong : FS where
  stat p := if p = "p" ∨ p = "q" then some ⟨true, false, 1025⟩ else none
  read p :=
    if p = "p" then some (List.replicate 1025 0)
    else if p = "q" then some (List.replicate 1024 0 ++ [1]) else none
  scan _ := .error .notADir

/-- One regular file `f`, one directory `d`, and nothing else: `x` does not
stat (a broken symlink), `nope` is not a directory. -/
def fsMixed : FS where
  stat p :=
    if p = "f" then some ⟨true, false, 1⟩
    else if p = "d" then some ⟨false, true, 0⟩ else none
  read _ := none
  scan _ := .error .notADir

/-- Two regular files `a` and `b` with the same (arbitrary) size and the same
(arbitrary) content, under an arbitrary digest. -/
def fsPair (a b : FilePath2) (n : Nat) (c : List Nat) : FS where
  stat p := if p = a ∨ p = b then some ⟨true, false, n⟩ else none
  read p := if p = a ∨ p = b then some c else none
  scan _ := .error .notADir

theorem dupPaths_length (st : JustOne) (l : List (HashValue × List FileIndex)) :
    ∀ gs, dupPaths st l = .ok gs → gs.length = l.length := by
  induction l with
  | nil =>
    intro gs h
    injection h with h
    rw [← h]
    rfl
  | cons kv rest ih =>
    intro gs h
    unfold dupPaths at h
    split at h
    · cases h
    · rename_i g hg
      cases hrest : dupPaths st rest with
      | error e => rw [hrest] at h; cases h
      | ok l2 =>
        rw [hrest] at h
        injection h with h
        rw [← h]
        simp [ih l2 hrest]

/-! ## Claim theorems. -/

/-- C1: the claim states that at most one record ever exists per path, the
registry returning the existing index on re-ingestion, with `file_index`
mapping the path to it.  The code violates this: `file_index` is never
written, so ingesting the path `a` in two consecutive `update` calls appends
a second record for `a` (with its hashes recomputed lazily), and `file_index`
stays empty. -/
theorem C1_duplicate_record_appended :
    (JustOne.update idHash fsTwoSame
      (JustOne.update idHash fsTwoSame JustOne.init ["a"]).1 ["a"]).1.file_info =
      [⟨0, "a", 1, none, none⟩, ⟨1, "a", 1, some [7], none⟩] ∧
    (JustOne.update idHash fsTwoSame
      (JustOne.update idHash fsTwoSame JustOne.init ["a"]).1 ["a"]).1.file_index = [] :=
  ⟨rfl, rfl⟩

/-- C2: the claim states that updating twice with the same file computes each
of its hashes at most once in total, the second call reusing the cached
values.  The code violates this: because every re-ingestion appends a fresh
record with unset hashes, running `update([f, g])` twice on two identical
files computes the prefix hash of the path `f` twice (once per call, on two
different records), as the ghost hash-call log shows. -/
theorem C2_prefix_hash_computed_twice :
    ((JustOne.update idHash fsFG
      (JustOne.update idHash fsFG JustOne.init ["f", "g"]).1 ["f", "g"]).1.hash_calls.countP
        (fun cc => decide (cc.2.1 = "f") && cc.2.2)) = 2 :=
  rfl

/-- C3 counterexample: for byte-identical files `a` and `b`, after
`update([a])` then `update([b])` the second call returns the empty tuple (not
a tuple containing `b`) and `duplicates()` yields no group at all, because
the already-registered record for `a` is never re-touched: `b` is alone at
the prefix-hash stage and no full hash is ever computed. -/
theorem C3_counterexample :
    (JustOne.update idHash fsTwoSame
      (JustOne.update idHash fsTwoSame JustOne.init ["a"]).1 ["b"]).2 = .ok [] ∧
    (JustOne.update idHash fsTwoSame
      (JustOne.update idHash fsTwoSame JustOne.init ["a"]).1 ["b"]).1.duplicates = .ok [] :=
  ⟨rfl, rfl⟩

/-- C3 (amended): cross-batch duplicates are found only when the earlier file
is re-submitted together with the new one.  For any two paths `a`, `b` bound
to byte-identical content of any size, under any digest, after `update([a])`
and then `update([a, b])` the second call returns both paths and
`duplicates()` yields one group containing both. -/
theorem C3_amended_resubmission (hf : List Nat → HashValue) (a b : FilePath2)
    (n : Nat) (c : List Nat) :
    (JustOne.update hf (fsPair a b n c)
      (JustOne.update hf (fsPair a b n c) JustOne.init [a]).1 [a, b]).2 = .ok [a, b] ∧
    (JustOne.update hf (fsPair a b n c)
      (JustOne.update hf (fsPair a b n c) JustOne.init [a]).1 [a, b]).1.duplicates
      = .ok [[a, b]] := by
  simp [JustOne.update, JustOne.init, pathIsDir, fsPair, update_multiple_files, statPhase,
    update_multiple_files_with_size, sizePhase, add_file_info, alGet, tempAdd, alGetD, alSet,
    slAdd, slUnion, merge_size_dict, mergeDict, smallHashLoop, get_small_hash, get_hash,
    fullHashLoop, get_full_hash, merge_small_hash_dict, merge_full_hash_dict, mapPaths,
    get_file_info, JustOne.duplicates, dupPaths, Except.map]

/-- C4 counterexample: the claim says a file whose size is unique among the
batch never has a hash computed.  After `update([a])`, the call `update([b])`
has `b` as its only member — its size is trivially unique within the batch —
yet its prefix hash is computed, because the merged size group also contains
the previously-registered `a`. -/
theorem C4_counterexample :
    (JustOne.update idHash fsTwoSame
      (JustOne.update idHash fsTwoSame JustOne.init ["a"]).1 ["b"]).1.hash_calls
      = [(1, "b", true)] ∧
    (JustOne.update idHash fsTwoSame
      (JustOne.update idHash fsTwoSame JustOne.init ["a"]).1 ["b"]).1.size_dict
      = [(1, [0, 1])] :=
  ⟨rfl, rfl⟩

/-- C4 (amended): uniqueness is judged against the merged registry, not the
batch alone.  On any well-formed engine, every hash computation newly logged
by an `update` call is justified: a prefix hash is computed only for an index
whose merged size group has at least two members, and a full hash only for an
index whose merged `(size, prefix-hash)` group has at least two members. -/
theorem C4_amended_registry_collision (hf : List Nat → HashValue) (fs : FS)
    (st : JustOne) (args : List FilePath2) (st2 : JustOne)
    (res : Except PyErr (List FilePath2)) (hwf : Wf st)
    (heq : JustOne.update hf fs st args = (st2, res)) :
    ∀ idx p b, (idx, p, b) ∈ st2.hash_calls → (idx, p, b) ∉ st.hash_calls →
      (b = true → SizeCollision st2 idx) ∧ (b = false → SmallCollision st2 idx) := by
  intro idx p b hmem hnot
  have hcp := update_post hf fs st args st2 res heq hwf
  rcases hcp.2.2 (idx, p, b) hmem with h1 | h1
  · exact absurd h1 hnot
  · unfold HashOk at h1
    dsimp only at h1
    constructor
    · intro hb
      rw [hb, if_pos rfl] at h1
      exact h1
    · intro hb
      rw [hb, if_neg (by decide : ¬ (false = true))] at h1
      exact h1

/-- Witness for C4: the first prefix-hash computation of the batch
`update([f, g])` on a fresh engine is justified by a size collision. -/
theorem C4_amended_registry_collision_witness :
    (true = true → SizeCollision (JustOne.update idHash fsFG JustOne.init ["f", "g"]).1 0) ∧
    (true = false → SmallCollision (JustOne.update idHash fsFG JustOne.init ["f", "g"]).1 0) :=
  C4_amended_registry_collision idHash fsFG JustOne.init ["f", "g"]
    (JustOne.update idHash fsFG JustOne.init ["f", "g"]).1
    (JustOne.update idHash fsFG JustOne.init ["f", "g"]).2
    (by decide) rfl 0 "f" true (by decide) (by decide)

/-- C5: batch-local reporting.  First conjunct, for any `update` call in any
mode on a well-formed engine: every path in the return value belongs to a
record that this very call created (its index is at least the pre-call record
count, so a path registered by an earlier call and not re-submitted can never
be reported) and that record is duplicate-bearing — its merged full-hash
group holds at least two members.  Second conjunct, for file mode where the
submitted batch is the literal argument list: every reported path is a member
of that call's arguments. -/
theorem C5_batch_local_reporting :
    (∀ (hf : List Nat → HashValue) (fs : FS) (st : JustOne) (args : List FilePath2)
      (st2 : JustOne) (paths : List FilePath2), Wf st →
      JustOne.update hf fs st args = (st2, .ok paths) →
      ∀ p ∈ paths, ∃ i r, st2.file_info.get? i = some r ∧ r.file = p ∧
        st.file_info.length ≤ i ∧ FullCollision st2 i) ∧
    (∀ (hf : List Nat → HashValue) (fs : FS) (st : JustOne) (f : FilePath2)
      (rest : List FilePath2) (st2 : JustOne) (paths : List FilePath2), Wf st →
      pathIsDir fs f = false →
      JustOne.update hf fs st (f :: rest) = (st2, .ok paths) →
      ∀ p ∈ paths, p ∈ f :: rest) := by
  constructor
  · intro hf fs st args st2 paths hwf heq
    exact update_ret hf fs st args st2 paths hwf heq
  · intro hf fs st f rest st2 paths hwf hmode heq
    exact update_files_subset hf fs st f rest st2 paths hwf hmode heq

/-- Witness for C5: on a fresh engine, `update([f, g])` reports the path `g`,
which names a freshly created duplicate-bearing record and is a member of the
submitted batch. -/
theorem C5_batch_local_reporting_witness :
    (∃ i r, (JustOne.update idHash fsFG JustOne.init ["f", "g"]).1.file_info.get? i
        = some r ∧ r.file = "g" ∧ JustOne.init.file_info.length ≤ i ∧
      FullCollision (JustOne.update idHash fsFG JustOne.init ["f", "g"]).1 i) ∧
    "g" ∈ ["f", "g"] :=
  ⟨C5_batch_local_reporting.1 idHash fsFG JustOne.init ["f", "g"]
      (JustOne.update idHash fsFG JustOne.init ["f", "g"]).1 ["f", "g"]
      (by decide) rfl "g" (by decide),
   C5_batch_local_reporting.2 idHash fsFG JustOne.init "f" ["g"]
      (JustOne.update idHash fsFG JustOne.init ["f", "g"]).1 ["f", "g"]
      (by decide) rfl rfl "g" (by decide)⟩

/-- C6: an OSError while computing a hash aborts the batch with
`raise UpdateError from e`, and nothing is rolled back.  First conjunct: any
`update` call on a well-formed engine that fails with `UpdateError` wrapping
`OSError` is an `UpdateError` and leaves a state that has monotonically grown
(records keep their cached hashes, all three mappings keep every entry).
Second conjunct, on a concrete run `update([a, b, c, d])` where reading `c`
fails: the error is exactly `UpdateError` from `OSError`, the whole batch was
merged into `size_dict` before the abort, the hashes of `a` and `b` computed
before the error remain cached, and no hash of `c` or `d` was ever computed. -/
theorem C6_abort_without_rollback :
    (∀ (hf : List Nat → HashValue) (fs : FS) (st : JustOne) (args : List FilePath2)
      (st2 : JustOne), Wf st →
      JustOne.update hf fs st args = (st2, .error (.updateErrorFrom .osError)) →
      isUpdateError (.updateErrorFrom .osError) = true ∧ StMono st st2) ∧
    (JustOne.update idHash fsAbort JustOne.init ["a", "b", "c", "d"]).2
      = .error (.updateErrorFrom .osError) ∧
    (JustOne.update idHash fsAbort JustOne.init ["a", "b", "c", "d"]).1.size_dict
      = [(1, [0, 1, 2, 3])] ∧
    (JustOne.update idHash fsAbort JustOne.init ["a", "b", "c", "d"]).1.file_info
      = [⟨0, "a", 1, some [1], none⟩, ⟨1, "b", 1, some [2], none⟩,
         ⟨2, "c", 1, none, none⟩, ⟨3, "d", 1, none, none⟩] ∧
    (JustOne.update idHash fsAbort JustOne.init ["a", "b", "c", "d"]).1.hash_calls
      = [(0, "a", true), (1, "b", true)] := by
  refine ⟨?_, rfl, rfl, rfl, rfl⟩
  intro hf fs st args st2 hwf heq
  exact ⟨rfl, (update_post hf fs st args st2 _ heq hwf).2.1⟩

/-- Witness for C6: the aborting run grows the state monotonically. -/
theorem C6_abort_without_rollback_witness :
    isUpdateError (.updateErrorFrom .osError) = true ∧
    StMono JustOne.init (JustOne.update idHash fsAbort JustOne.init ["a", "b", "c", "d"]).1 :=
  C6_abort_without_rollback.1 idHash fsAbort JustOne.init ["a", "b", "c", "d"]
    (JustOne.update idHash fsAbort JustOne.init ["a", "b", "c", "d"]).1
    (by decide) rfl

/-- C7: the Stage-Index invariant holds between public operations.  The fresh
engine is well formed, and every `update` call on a well-formed engine leaves
it well formed (every index in `small_hash_dict` points to a record with its
prefix hash set, every index in `full_hash_dict` to one with its full hash
set, every record appears in `size_dict` under its size) while all three
mappings only grow, key by key, in membership and in size.  `duplicates()`
reads the state without modifying it, so it trivially preserves the
invariant. -/
theorem C7_stage_index_invariant :
    Wf JustOne.init ∧
    ∀ (hf : List Nat → HashValue) (fs : FS) (st : JustOne) (args : List FilePath2)
      (st2 : JustOne) (res : Except PyErr (List FilePath2)), Wf st →
      JustOne.update hf fs st args = (st2, res) →
      Wf st2 ∧ DictGe st.size_dict st2.size_dict ∧
      DictGe st.small_hash_dict st2.small_hash_dict ∧
      DictGe st.full_hash_dict st2.full_hash_dict := by
  constructor
  · decide
  · intro hf fs st args st2 res hwf heq
    obtain ⟨hwf2, hmono, _⟩ := update_post hf fs st args st2 res heq hwf
    exact ⟨hwf2, hmono.2.1, hmono.2.2.1, hmono.2.2.2.1⟩

/-- Witness for C7: a concrete update preserves well-formedness and grows the
mappings. -/
theorem C7_stage_index_invariant_witness :
    Wf (JustOne.update idHash fsFG JustOne.init ["f", "g"]).1 ∧
    DictGe JustOne.init.size_dict
      (JustOne.update idHash fsFG JustOne.init ["f", "g"]).1.size_dict ∧
    DictGe JustOne.init.small_hash_dict
      (JustOne.update idHash fsFG JustOne.init ["f", "g"]).1.small_hash_dict ∧
    DictGe JustOne.init.full_hash_dict
      (JustOne.update idHash fsFG JustOne.init ["f", "g"]).1.full_hash_dict :=
  C7_stage_index_invariant.2 idHash fsFG JustOne.init ["f", "g"]
    (JustOne.update idHash fsFG JustOne.init ["f", "g"]).1
    (JustOne.update idHash fsFG JustOne.init ["f", "g"]).2
    (by decide) rfl

set_option maxRecDepth 100000 in
/-- C8: `duplicates()` yields exactly one group per key of `full_hash_dict`
with no filtering on group size (first conjunct: whenever it succeeds it
yields as many groups as there are keys), and singleton groups reach the
public interface: on two 1025-byte files sharing their first 1024 bytes but
differing afterwards, `update` reports no duplicates, yet `duplicates()`
yields two singleton groups, one per computed full hash. -/
theorem C8_singleton_groups :
    (∀ (st : JustOne) (gs : List (List FilePath2)), JustOne.duplicates st = .ok gs →
      gs.length = st.full_hash_dict.length) ∧
    (JustOne.update idHash fsLong JustOne.init ["p", "q"]).2 = .ok [] ∧
    (JustOne.update idHash fsLong JustOne.init ["p", "q"]).1.duplicates
      = .ok [["p"], ["q"]] := by
  refine ⟨?_, rfl, rfl⟩
  intro st gs h
  exact dupPaths_length st st.full_hash_dict gs h

set_option maxRecDepth 100000 in
/-- Witness for C8: the concrete run yields one group per full-hash key. -/
theorem C8_singleton_groups_witness :
    ([["p"], ["q"]] : List (List FilePath2)).length =
      (JustOne.update idHash fsLong JustOne.init ["p", "q"]).1.full_hash_dict.length :=
  C8_singleton_groups.1 (JustOne.update idHash fsLong JustOne.init ["p", "q"]).1
    [["p"], ["q"]] rfl

/-- C9 counterexample: a broken symlink (a path whose stat fails) in a
file-mode batch makes the whole batch fail with the raw `OSError`, which is
not an `UpdateError` — the claim that every non-regular-file path produces an
`UpdateError` is false on the code. -/
theorem C9_counterexample :
    (JustOne.update idHash fsMixed JustOne.init ["f", "x"]).2 = .error .osError ∧
    isUpdateError .osError = false :=
  ⟨rfl, rfl⟩

/-- C9 (amended): in file mode, a batch containing any path that is not a
regular file fails as a whole — with `UpdateError('Not a Regular File: …')`
when stat succeeds on a non-regular path, and with the underlying `OSError`
when stat itself fails (broken symlink) — the engine state is left completely
untouched and no result is returned. -/
theorem C9_batch_fails_on_non_regular (hf : List Nat → HashValue) (fs : FS)
    (st : JustOne) (f : FilePath2) (rest : List FilePath2) (st2 : JustOne)
    (res : Except PyErr (List FilePath2)) (p : FilePath2)
    (hmode : pathIsDir fs f = false) (hp : p ∈ f :: rest)
    (hbad : fs.stat p = none ∨ ∃ s, fs.stat p = some s ∧ s.isReg = false)
    (heq : JustOne.update hf fs st (f :: rest) = (st2, res)) :
    st2 = st ∧ ∃ e, res = .error e ∧ (e = .osError ∨ ∃ m, e = .updateErrorMsg m) := by
  unfold JustOne.update at heq
  dsimp only at heq
  have hno : ¬ (pathIsDir fs f = true) := by rw [hmode]; exact Bool.false_ne_true
  rw [if_neg hno] at heq
  obtain ⟨e, hsp, hform⟩ := statPhase_bad fs (f :: rest) p hp hbad
  have humf : update_multiple_files hf fs st (f :: rest) = (st, .error e) := by
    unfold update_multiple_files
    rw [hsp]
  rw [humf] at heq
  dsimp only at heq
  injection heq with h1 h2
  exact ⟨h1.symm, e, h2.symm, hform⟩

/-- Witness for C9: the broken-symlink batch leaves the engine untouched and
fails with one of the two error shapes. -/
theorem C9_batch_fails_on_non_regular_witness :
    (JustOne.update idHash fsMixed JustOne.init ["f", "x"]).1 = JustOne.init ∧
    ∃ e, (JustOne.update idHash fsMixed JustOne.init ["f", "x"]).2 = .error e ∧
      (e = .osError ∨ ∃ m, e = .updateErrorMsg m) :=
  C9_batch_fails_on_non_regular idHash fsMixed JustOne.init "f" ["x"]
    (JustOne.update idHash fsMixed JustOne.init ["f", "x"]).1
    (JustOne.update idHash fsMixed JustOne.init ["f", "x"]).2
    "x" rfl (by decide) (Or.inl rfl) rfl

/-- C10: with more than one positional argument `main` prints usage and
returns 1 — this part the code satisfies.  But with a single argument that is
not an existing directory it prints the error message and then takes a bare
`return`, so `sys.exit(main())` becomes `sys.exit(None)`, which terminates
the process with exit status 0 — not the failure status the claim states. -/
theorem C10_missing_directory_exits_zero :
    mainFn idHash fsMixed ["justone", "nope"]
      = (["Not an existed folder path.", usageLine], .ok none) ∧
    sysExitCode none = 0 ∧
    mainFn idHash fsMixed ["justone", "a", "b"] = ([usageLine], .ok (some 1)) :=
  ⟨rfl, rfl, rfl⟩
